import Mathlib

/-!
Verification of the tsumiki dependency-driven recalculation engine.

This file shallowly embeds the engine's core code:
  * `buildDependencyGraph` / `topologicalSort` (src/lib/engine/graph.ts),
  * `recalculateAll` and its inline input resolution
    (src/store/useTsumikiStore.ts, shown as src/lib/utils/cardHelpers.ts),
  * `createStrategyDefinition` / `resolveStrategyId`
    (src/lib/registry/strategyHelper.ts),
  * the Beam card's `simple_uniform` / `cantilever_point` strategies
    (src/components/cards/Beam.tsx, src/lib/mechanics/beam.ts),
  * the store's input-slot mutation actions.

JavaScript records (`Record<string, T>`, `Map<string, T>`) are embedded as
association lists `List (String × T)` with first-match lookup and
replace-or-append assignment, matching object/`Map.set` semantics up to
iteration order.  JavaScript numbers are embedded as `ℚ` (no NaN/Infinity;
`parseFloat` returning NaN is embedded as `Option.none`).  Runtime values
that flow through `Record<string, number>` despite not being numbers
(Beam's `diagramModel` object, string values) are embedded by `JsVal`.
-/

namespace Tsumiki

/-- A runtime JavaScript value that can sit in an input slot, a resolved
input map, or an output map: a number, a string, or (the one object the
code actually stores in outputs) a `BeamModel` record from Beam.tsx. -/
inductive JsVal : Type where
  | num (q : ℚ)
  | str (s : String)
  | beamModel (boundary load : String) (L : ℚ) (w P xloc : Option ℚ)
  deriving DecidableEq, Repr

/-- A reference slot: producer card id plus producer output key
(`{ cardId, outputKey }` in src/types/index.ts). -/
structure Ref where
  cardId : String
  outputKey : String
  deriving DecidableEq, Repr

/-- `CardInput` from src/types/index.ts: a literal `value` and an optional
`ref`.  The declared TS type makes `value` mandatory, but the code guards
with `input.value !== undefined`, so we keep it optional. -/
structure InputSlot where
  value : Option JsVal
  ref : Option Ref
  deriving DecidableEq, Repr

/-- `Card` from src/types/index.ts plus the `error` field that
`recalculateAll` writes on it. -/
structure Card where
  id : String
  type : String
  aliasName : String   -- `alias` in the source; renamed (Lean keyword)
  inputs : List (String × InputSlot)
  outputs : List (String × JsVal)
  error : Option String
  deriving DecidableEq, Repr

/-! ### Association-list embedding of JS records / Maps -/

/-- First-match lookup, `m[k]` / `m.get(k)` (returns `undefined` as `none`). -/
def lookupKV {α : Type} (m : List (String × α)) (k : String) : Option α :=
  (m.find? (fun p => p.1 = k)).map (·.2)

/-- `m[k] = v` / `m.set(k, v)`: replace the entry if the key is present,
else append it. -/
def setKV {α : Type} (m : List (String × α)) (k : String) (v : α) :
    List (String × α) :=
  if m.any (fun p => p.1 = k) then
    m.map (fun p => if p.1 = k then (k, v) else p)
  else m ++ [(k, v)]

/-- Key presence, `m.has(k)` / `k in m`. -/
def hasKV {α : Type} (m : List (String × α)) (k : String) : Bool :=
  (lookupKV m k).isSome

/-! ### A model of `parseFloat` / numeric coercion -/

/-- Decimal digit run to a natural number. -/
def digitsVal (cs : List Char) : Nat :=
  cs.foldl (fun n c => n * 10 + (c.toNat - 48)) 0

/-- Model of JavaScript `parseFloat` on a string: optional sign, then a
decimal literal prefix (`123`, `123.45`, `.5`); everything that yields NaN
is `none`.  (Exponents and `Infinity` are out of scope of this model.) -/
def parseNum (s : String) : Option ℚ :=
  let cs := s.toList.dropWhile (fun c => c = ' ')
  let (sgn, cs) :=
    match cs with
    | '-' :: t => ((-1 : ℚ), t)
    | '+' :: t => ((1 : ℚ), t)
    | _ => ((1 : ℚ), cs)
  let ds := cs.takeWhile Char.isDigit
  let rest := cs.dropWhile Char.isDigit
  match rest with
  | '.' :: t =>
      let fs := t.takeWhile Char.isDigit
      if ds = [] ∧ fs = [] then none
      else some (sgn * ((digitsVal ds : ℚ) + (digitsVal fs : ℚ) / ((10 : ℚ) ^ fs.length)))
  | _ => if ds = [] then none else some (sgn * (digitsVal ds : ℚ))

/-- Model of the idiom `parseFloat(String(x))` applied to an optional slot
value: a number round-trips, a string goes through `parseFloat`, the
`undefined` slot value stringifies to `"undefined"` (NaN), and an object
stringifies to `"[object Object]"` (NaN). -/
def jsParseFloat : Option JsVal → Option ℚ
  | none => none
  | some (JsVal.num q) => some q
  | some (JsVal.str s) => parseNum s
  | some (JsVal.beamModel _ _ _ _ _ _) => none

/-! ### Dependency graph builder (src/lib/engine/graph.ts) -/

/-- `graph.get(nodeId) || []`. -/
def getEdges (g : List (String × List String)) (n : String) : List String :=
  (lookupKV g n).getD []

/-- The first loop body of `buildDependencyGraph`: ensure the card id is a
key of the adjacency map. -/
def initCardKey (g : List (String × List String)) (c : Card) :
    List (String × List String) :=
  if hasKV g c.id then g else setKV g c.id []

/-- The innermost loop body of `buildDependencyGraph`: for one input slot
of `consumer`, if it is a reference whose producer id is a key, append the
edge producer → consumer unless it is already recorded. -/
def addEdgeStep (consumerId : String) (g : List (String × List String))
    (inp : InputSlot) : List (String × List String) :=
  match inp.ref with
  | none => g
  | some r =>
      if hasKV g r.cardId then
        let edges := getEdges g r.cardId
        if consumerId ∈ edges then g
        else setKV g r.cardId (edges ++ [consumerId])
      else g

/-- The second loop body of `buildDependencyGraph`: process every input
slot of one consumer card (`Object.values(consumerCard.inputs)`). -/
def addCardEdges (g : List (String × List String)) (consumer : Card) :
    List (String × List String) :=
  (consumer.inputs.map (·.2)).foldl (addEdgeStep consumer.id) g

/-- `buildDependencyGraph`: initialize every card id with an empty edge
list, then for each consumer card and each of its reference inputs append
the edge producer → consumer if the producer id is a key, deduplicated. -/
def buildDependencyGraph (cards : List Card) : List (String × List String) :=
  cards.foldl addCardEdges (cards.foldl initCardKey [])

/-! ### DFS topological sorter (src/lib/engine/graph.ts) -/

/-- The mutable state of `topologicalSort`'s DFS: the `visited` set, the
`tempVisited` recursion stack and the accumulated `order` (built with
`unshift`, so the head finished last).  `visited` is kept as a list in
insertion order, which makes `order = visited` an invariant. -/
structure SortState where
  visited : List String
  temp : List String
  order : List String
  deriving Repr

/-- The recursive `visit` of `topologicalSort`, with a fuel argument to
express the recursion; `topologicalSort` supplies fuel that provably never
runs out (the recursion depth is bounded by the number of distinct ids in
`tempVisited`, see `gfuel` below). -/
def visit (g : List (String × List String)) :
    Nat → SortState → String → SortState
  | 0, s, _ => s
  | fuel + 1, s, n =>
      if n ∈ s.temp then s
      else if n ∈ s.visited then s
      else
        let s1 : SortState := { s with temp := n :: s.temp }
        let s2 := (getEdges g n).foldl (visit g fuel) s1
        { visited := n :: s2.visited
          temp := s2.temp.erase n
          order := n :: s2.order }

/-- The top-level loop body of `topologicalSort`: visit a card in list
order unless it is already visited. -/
def visitRoot (g : List (String × List String)) (fuel : Nat) (s : SortState)
    (c : Card) : SortState :=
  if c.id ∈ s.visited then s else visit g fuel s c.id

/-- `topologicalSort`: DFS from every card in list order, prepending each
node to the order when its visit finishes. -/
def topologicalSort (cards : List Card) : List String :=
  let g := buildDependencyGraph cards
  (cards.foldl (visitRoot g (cards.length + 1)) ⟨[], [], []⟩).order

/-! ### Registry definitions (src/lib/registry/types.ts)

Only the fields the engine reads are embedded: `default` from input-config
entries, `defaultInputs`, `inputConfig`, `getInputConfig`, `calculate`.
Display-only fields (labels, icons, unit types, components) are dropped. -/

/-- One entry of an input config: only its `default` is consulted by the
resolver. -/
structure ConfigEntry where
  default : Option JsVal
  deriving DecidableEq, Repr

/-- A card-type definition as consumed by `recalculateAll`.  `calculate`
is optional because the code guards with `def.calculate`; a throwing
`calculate` is embedded as `Except.error message`. -/
structure CardDef where
  defaultInputs : List (String × InputSlot)
  inputConfig : List (String × ConfigEntry)
  getInputConfig : Option (Card → List (String × ConfigEntry))
  calculate : Option (List (String × JsVal) → List (String × InputSlot) →
      Except String (List (String × JsVal)))

/-- The registry, `registry.get : type → CardDefinition | undefined`. -/
def Registry : Type := String → Option CardDef

/-! ### The recalculation pass (recalculateAll in the store) -/

/-- Reference resolution against the current snapshot:
`updatedCardsMap.get(ref.cardId)?.outputs[ref.outputKey] ?? 0`. -/
def resolveRef (snap : List (String × Card)) (r : Ref) : JsVal :=
  ((lookupKV snap r.cardId).bind (fun sc => lookupKV sc.outputs r.outputKey)).getD
    (JsVal.num 0)

/-- The dynamic config, `def.getInputConfig ? def.getInputConfig(card) : {}`. -/
def dynConfig (d : CardDef) (card : Card) : List (String × ConfigEntry) :=
  match d.getInputConfig with
  | some f => f card
  | none => []

/-- Object-spread merge `{ ...base, ...over }`: keys of `base` in order with
overriding values, then the new keys of `over`. -/
def spreadMerge {α : Type} (base over : List (String × α)) : List (String × α) :=
  base.map (fun p => match lookupKV over p.1 with
    | some v => (p.1, v)
    | none => p) ++
  over.filter (fun p => ¬ hasKV base p.1)

/-- The resolved config `{ ...(def.inputConfig || {}), ...dynamicConfig }`. -/
def resolvedConfigOf (d : CardDef) (card : Card) : List (String × ConfigEntry) :=
  spreadMerge d.inputConfig (dynConfig d card)

/-- One iteration of phase 1's loop (one configured key).  A reference
slot resolves from the snapshot; a slot whose value is set and not `''`
parses as a number (NaN → 0); otherwise a declared default parses the same
way; a key with none of these is left unassigned. -/
def phase1Step (snap : List (String × Card)) (card : Card)
    (acc : List (String × JsVal)) (kv : String × ConfigEntry) :
    List (String × JsVal) :=
  let defaultBranch : List (String × JsVal) :=
    match kv.2.default with
    | some d => setKV acc kv.1 (JsVal.num ((jsParseFloat (some d)).getD 0))
    | none => acc
  match lookupKV card.inputs kv.1 with
  | some inp =>
      match inp.ref with
      | some r => setKV acc kv.1 (resolveRef snap r)
      | none =>
          match inp.value with
          | some v =>
              if v ≠ JsVal.str "" then
                setKV acc kv.1 (JsVal.num ((jsParseFloat (some v)).getD 0))
              else defaultBranch
          | none => defaultBranch
  | none => defaultBranch

/-- Phase 1 of input resolution: process every configured key. -/
def phase1 (snap : List (String × Card)) (card : Card)
    (cfg : List (String × ConfigEntry)) : List (String × JsVal) :=
  cfg.foldl (phase1Step snap card) []

/-- One iteration of phase 2's loop (one stored input): skip keys already
resolved, otherwise resolve the reference or `parseFloat` the value. -/
def phase2Step (snap : List (String × Card))
    (acc : List (String × JsVal)) (kv : String × InputSlot) :
    List (String × JsVal) :=
  if hasKV acc kv.1 then acc
  else
    match kv.2.ref with
    | some r => setKV acc kv.1 (resolveRef snap r)
    | none => setKV acc kv.1 (JsVal.num ((jsParseFloat kv.2.value).getD 0))

/-- Phase 2 of input resolution: every stored input key not already
resolved is processed the same way (reference, else `parseFloat`). -/
def phase2 (snap : List (String × Card)) (card : Card)
    (acc : List (String × JsVal)) : List (String × JsVal) :=
  card.inputs.foldl (phase2Step snap) acc

/-- The full two-phase resolved input map of one card against a snapshot. -/
def resolveInputs (snap : List (String × Card)) (card : Card) (d : CardDef) :
    List (String × JsVal) :=
  phase2 snap card (phase1 snap card (resolvedConfigOf d card))

/-- The per-card body of the pass: dispatch the definition, resolve inputs,
invoke `calculate(resolvedInputs, card.inputs)`; on success store its map
and clear `error`, on a thrown error store `{}` and the message, and with
no definition or no `calculate` store `{}` and no error. -/
def processCard (reg : Registry) (snap : List (String × Card)) (card : Card) :
    Card :=
  match reg card.type with
  | some d =>
      match d.calculate with
      | some f =>
          match f (resolveInputs snap card d) card.inputs with
          | Except.ok m => { card with outputs := m, error := none }
          | Except.error msg => { card with outputs := [], error := some msg }
      | none => { card with outputs := [], error := none }
  | none => { card with outputs := [], error := none }

/-- One `sortedIds.forEach` step: look the id up in the snapshot (skipping
ids that are absent) and overwrite its entry with the processed card. -/
def passStep (reg : Registry) (snap : List (String × Card)) (id : String) :
    List (String × Card) :=
  match lookupKV snap id with
  | none => snap
  | some card => setKV snap id (processCard reg snap card)

/-- `recalculateAll`: topologically sort, seed the snapshot from the list,
process every sorted id in order, and return the cards in their original
list order with their snapshot entries.  (`map.get(c.id)!` is embedded as
`getD c`; the key is always present.) -/
def recalculateAll (reg : Registry) (cards : List Card) : List Card :=
  let sortedIds := topologicalSort cards
  let snap0 := cards.foldl (fun m c => setKV m c.id c) []
  let snapF := sortedIds.foldl (passStep reg) snap0
  cards.map (fun c => (lookupKV snapF c.id).getD c)

/-! ### Strategy dispatch (src/lib/registry/strategyHelper.ts) -/

/-- A strategy axis: selector key, enumerated options (labels dropped) and
a default value. -/
structure StrategyAxis where
  key : String
  options : List String
  default : String
  deriving DecidableEq, Repr

/-- A strategy variant: composite id, its own input config and its own
calculate (which receives only the resolved inputs). -/
structure CardStrategy where
  id : String
  inputConfig : List (String × ConfigEntry)
  calculate : List (String × JsVal) → Except String (List (String × JsVal))

/-- JavaScript truthiness of a slot value, as used by
`inputs[axis.key]?.value || axis.default`. -/
def truthy : Option JsVal → Bool
  | none => false
  | some (JsVal.num q) => q ≠ 0
  | some (JsVal.str s) => s ≠ ""
  | some (JsVal.beamModel _ _ _ _ _ _) => true

/-- `String(x)` on a slot value (only used after a truthiness test). -/
def jsToString : Option JsVal → String
  | none => "undefined"
  | some (JsVal.num q) => toString q
  | some (JsVal.str s) => s
  | some (JsVal.beamModel _ _ _ _ _ _) => "[object Object]"

/-- `String(inputs[key]?.value || default)`. -/
def axisValue (inputs : List (String × InputSlot)) (a : StrategyAxis) : String :=
  let v := (lookupKV inputs a.key).bind (·.value)
  if truthy v then jsToString v else a.default

/-- `resolveStrategyId`: without inputs the first-declared variant's id;
with a single axis the axis's stored value itself; with several axes the
axis values joined with `'_'`. -/
def resolveStrategyId (axes : List StrategyAxis) (s0 : CardStrategy)
    (inputs : Option (List (String × InputSlot))) : String :=
  match inputs with
  | none => s0.id
  | some m =>
      if h : axes.length = 1 then
        axisValue m (axes.get ⟨0, by omega⟩)
      else
        String.intercalate "_" (axes.map (axisValue m))

/-- `strategies.find(s => s.id === currentId) || defaultStrategy`. -/
def findStrategy (strategies : List CardStrategy) (s0 : CardStrategy)
    (currentId : String) : CardStrategy :=
  ((strategies.find? (fun s => s.id = currentId)).getD s0)

/-- `createStrategyDefinition` for the multi-axis (`strategyAxes`) mode.
The source throws unless at least one strategy is declared, so the
embedding takes the first-declared strategy `s0` and the rest separately;
`strategies = s0 :: rest` and `defaultStrategy = s0`.  `commonInputs` are
spread after the per-axis defaults into `defaultInputs`. -/
def createStrategyDefinition (axes : List StrategyAxis) (s0 : CardStrategy)
    (rest : List CardStrategy)
    (commonInputs : List (String × InputSlot)) : CardDef :=
  let strategies := s0 :: rest
  let axisDefaults : List (String × InputSlot) :=
    axes.map (fun a => (a.key, ⟨some (JsVal.str a.default), none⟩))
  { defaultInputs := spreadMerge axisDefaults commonInputs
    inputConfig := axes.map (fun a => (a.key, ⟨some (JsVal.str a.default)⟩))
    getInputConfig := some (fun card =>
      (findStrategy strategies s0
        (resolveStrategyId axes s0 (some card.inputs))).inputConfig)
    calculate := some (fun inputs rawInputs =>
      (findStrategy strategies s0
        (resolveStrategyId axes s0 (some rawInputs))).calculate inputs) }

/-! ### Input-slot mutations (store actions) -/

/-- `updateInput`: set a literal value on the slot (falling back to a fresh
`{ value: '' }` slot) and clear its reference. -/
def updateInput (cards : List Card) (cardId inputKey : String) (v : JsVal) :
    List Card :=
  cards.map (fun c =>
    if c.id = cardId then
      let currentInput := (lookupKV c.inputs inputKey).getD ⟨some (JsVal.str ""), none⟩
      { c with inputs := setKV c.inputs inputKey { currentInput with value := some v, ref := none } }
    else c)

/-- `setInputRef`: point the slot at a producer output and clear its
literal value to `''`. -/
def setInputRef (cards : List Card) (cardId inputKey targetCardId targetOutputKey : String) :
    List Card :=
  cards.map (fun c =>
    if c.id = cardId then
      let slot : InputSlot := InputSlot.mk (some (JsVal.str ""))
        (some (Ref.mk targetCardId targetOutputKey))
      { c with inputs := setKV c.inputs inputKey slot }
    else c)

/-- `removeReference`: clear the slot's reference, keeping its value. -/
def removeReference (cards : List Card) (cardId inputKey : String) : List Card :=
  cards.map (fun c =>
    if c.id = cardId then
      match lookupKV c.inputs inputKey with
      | none => c
      | some currentInput =>
          { c with inputs := setKV c.inputs inputKey { currentInput with ref := none } }
    else c)

/-- `removeInput`: delete the input key from the card. -/
def removeInput (cards : List Card) (cardId inputKey : String) : List Card :=
  cards.map (fun c =>
    if c.id = cardId then
      { c with inputs := c.inputs.filter (fun p => p.1 ≠ inputKey) }
    else c)

/-- The slot-editing store actions; each one maps the card list and then
runs a full recalculation pass, as the store does. -/
inductive StoreOp : Type where
  | update (cardId inputKey : String) (v : JsVal)
  | setRef (cardId inputKey targetCardId targetOutputKey : String)
  | clearRef (cardId inputKey : String)
  | dropInput (cardId inputKey : String)

/-- Apply one store action: the slot edit followed by `recalculateAll`. -/
def applyOp (reg : Registry) (cards : List Card) : StoreOp → List Card
  | StoreOp.update cid k v => recalculateAll reg (updateInput cards cid k v)
  | StoreOp.setRef cid k tid tk => recalculateAll reg (setInputRef cards cid k tid tk)
  | StoreOp.clearRef cid k => recalculateAll reg (removeReference cards cid k)
  | StoreOp.dropInput cid k => recalculateAll reg (removeInput cards cid k)

/-! ### Derived notions used by the claims -/

/-- `typeof v === 'number'`: the numeric test on a runtime value. -/
def isNum : JsVal → Bool
  | JsVal.num _ => true
  | _ => false

/-- Find a card by id in a card list. -/
def findCard (cs : List Card) (id : String) : Option Card :=
  cs.find? (fun c => c.id = id)

/-- The value phase 1 assigns to one configured key (or `none` when the
key is left unassigned): the specification of one iteration of phase 1's
loop body. -/
def phase1Val (snap : List (String × Card)) (card : Card) (k : String)
    (e : ConfigEntry) : Option JsVal :=
  let defaultVal : Option JsVal :=
    match e.default with
    | some d => some (JsVal.num ((jsParseFloat (some d)).getD 0))
    | none => none
  match lookupKV card.inputs k with
  | some inp =>
      match inp.ref with
      | some r => some (resolveRef snap r)
      | none =>
          match inp.value with
          | some v =>
              if v ≠ JsVal.str "" then
                some (JsVal.num ((jsParseFloat (some v)).getD 0))
              else defaultVal
          | none => defaultVal
  | none => defaultVal

/-- The value phase 2 assigns to a not-yet-resolved stored input. -/
def phase2Val (snap : List (String × Card)) (inp : InputSlot) : JsVal :=
  match inp.ref with
  | some r => resolveRef snap r
  | none => JsVal.num ((jsParseFloat inp.value).getD 0)

/-! #### The Beam card's strategies exercised by the claims
(Beam.tsx / mechanics/beam.ts; the strategy list is trimmed to the two
variants the claims exercise). -/

/-- `inputs[k] || 0` on a resolved numeric input (a number is returned
unchanged because `0 || 0 = 0`); non-numeric values are outside the scope
of this arithmetic model and map to 0. -/
def jsNumOr0 (v : Option JsVal) : ℚ :=
  match v with
  | some (JsVal.num q) => q
  | _ => 0

/-- `inputs[k]` read as `number | undefined`. -/
def optNum (v : Option JsVal) : Option ℚ :=
  match v with
  | some (JsVal.num q) => some q
  | _ => none

/-- The Beam `simple_uniform` strategy's calculate: `createModel` plus the
`simple`/`uniform` branch of `calculateBeamMax`
(`M_max = w·L²/8`, `V_max = w·L/2`), returning the maxima and the
`diagramModel` object. -/
def calcSimpleUniform (inputs : List (String × JsVal)) :
    Except String (List (String × JsVal)) :=
  let L := jsNumOr0 (lookupKV inputs "L")
  let w := optNum (lookupKV inputs "w")
  let P := optNum (lookupKV inputs "P")
  let wv := w.getD 0
  Except.ok
    [("M_max", JsVal.num (wv * L * L / 8)),
     ("V_max", JsVal.num (wv * L / 2)),
     ("diagramModel", JsVal.beamModel "simple" "uniform" L w P none)]

/-- The Beam `cantilever_point` strategy's calculate: `createModel`, then
`model.x_loc = inputs['a'] || model.L`, then the `cantilever`/`point`
branch of `calculateBeamMax` (`M_max = -P·a`, `V_max = P`). -/
def calcCantileverPoint (inputs : List (String × JsVal)) :
    Except String (List (String × JsVal)) :=
  let L := jsNumOr0 (lookupKV inputs "L")
  let w := optNum (lookupKV inputs "w")
  let P := optNum (lookupKV inputs "P")
  let a := match optNum (lookupKV inputs "a") with
    | some q => if q = 0 then L else q
    | none => L
  let Pv := P.getD 0
  Except.ok
    [("M_max", JsVal.num (-(Pv * a))),
     ("V_max", JsVal.num Pv),
     ("diagramModel", JsVal.beamModel "cantilever" "point" L w P (some a))]

/-- The Beam strategy axes (`boundary`, `load`), in declared order. -/
def beamAxes : List StrategyAxis :=
  [⟨"boundary", ["simple", "cantilever", "fixed_fixed", "fixed_pinned"], "simple"⟩,
   ⟨"load", ["uniform", "point", "moment"], "uniform"⟩]

/-- The `simple_uniform` Beam variant. -/
def beamSimpleUniform : CardStrategy :=
  ⟨"simple_uniform",
   [("L", ⟨some (JsVal.num 4000)⟩), ("w", ⟨some (JsVal.num 10)⟩)],
   calcSimpleUniform⟩

/-- The `cantilever_point` Beam variant. -/
def beamCantileverPoint : CardStrategy :=
  ⟨"cantilever_point",
   [("L", ⟨some (JsVal.num 2000)⟩), ("P", ⟨some (JsVal.num 1000)⟩),
    ("a", ⟨some (JsVal.num 2000)⟩)],
   calcCantileverPoint⟩

/-- The Beam card definition built through `createStrategyDefinition`. -/
def beamCardDef : CardDef :=
  createStrategyDefinition beamAxes beamSimpleUniform [beamCantileverPoint] []

/-- A registry holding only the Beam definition. -/
def beamRegistry : Registry :=
  fun t => if t = "BEAM" then some beamCardDef else none

/-- A freshly created Beam card (inputs are the definition's defaults). -/
def beamDefaultCard : Card :=
  ⟨"beam1", "BEAM", "beam_1", beamCardDef.defaultInputs, [], none⟩

/-! #### The failure-isolation scenario (spec §8): A throws, B independent,
C references A's output. -/

/-- Scenario card A (no inputs). -/
def sACard : Card := ⟨"a", "TA", "a", [], [], none⟩

/-- Scenario card B (no inputs, independent of A). -/
def sBCard : Card := ⟨"b", "TB", "b", [], [], none⟩

/-- Scenario card C, referencing A's output key `out`. -/
def sCCard : Card :=
  ⟨"c", "TC", "c", [("x", ⟨some (JsVal.str ""), some ⟨"a", "out"⟩⟩)], [], none⟩

/-- The scenario list. -/
def sCards : List Card := [sACard, sBCard, sCCard]

/-- C's calculate: echo the resolved value of `x` as output `y`. -/
def calcEchoX (ins : List (String × JsVal)) (_ : List (String × InputSlot)) :
    Except String (List (String × JsVal)) :=
  Except.ok [("y", (lookupKV ins "x").getD (JsVal.num 99))]

/-- The scenario registry, parametrized by A's and B's calculate. -/
def scenarioReg
    (fA fB : List (String × JsVal) → List (String × InputSlot) →
      Except String (List (String × JsVal))) : Registry :=
  fun t =>
    if t = "TA" then some ⟨[], [], none, some fA⟩
    else if t = "TB" then some ⟨[], [], none, some fB⟩
    else if t = "TC" then some ⟨[], [], none, some calcEchoX⟩
    else none

/-! #### The slot mutual-exclusion invariant (C9) -/

/-- An input slot is well-formed when holding a reference forces the
literal value to be the cleared `''`. -/
def SlotOk (s : InputSlot) : Prop :=
  s.ref.isSome = true → s.value = some (JsVal.str "")

/-- All slots of all cards are well-formed. -/
def CardsSlotsOk (cs : List Card) : Prop :=
  ∀ c ∈ cs, ∀ p ∈ c.inputs, SlotOk p.2

instance (s : InputSlot) : Decidable (SlotOk s) :=
  if h : s.ref.isSome = true then
    if hv : s.value = some (JsVal.str "") then Decidable.isTrue (fun _ => hv)
    else Decidable.isFalse (fun hok => hv (hok h))
  else Decidable.isTrue (fun hr => absurd hr h)

instance (cs : List Card) : Decidable (CardsSlotsOk cs) :=
  inferInstanceAs (Decidable (∀ c ∈ cs, ∀ p ∈ c.inputs, SlotOk p.2))

/-- The list of card ids, in list order. -/
def cardIds (cards : List Card) : List String := cards.map Card.id

/-- `c` holds a reference slot naming producer `u`. -/
def CardRef (c : Card) (u : String) : Prop :=
  ∃ inp ∈ c.inputs.map (·.2), ∃ r, inp.ref = some r ∧ r.cardId = u

/-- The dependency edge relation of a card list: producer `u` → consumer
`v` when `u` is a card id and some card with id `v` references `u`. -/
def CardEdge (cards : List Card) (u v : String) : Prop :=
  u ∈ cardIds cards ∧ ∃ c ∈ cards, c.id = v ∧ CardRef c u

/-- The edge relation of a built adjacency map. -/
def GEdge (g : List (String × List String)) (u v : String) : Prop :=
  v ∈ getEdges g u

/-- Reachability along graph edges (reflexive-transitive closure). -/
def GReach (g : List (String × List String)) : String → String → Prop :=
  Relation.ReflTransGen (GEdge g)

/-- Acyclicity of a graph: no edge closes a path back to its source. -/
def AcyclicG (g : List (String × List String)) : Prop :=
  ∀ u v, GEdge g u v → GReach g v u → False

/-- Acyclicity of a card list's reference edges. -/
def AcyclicCards (cards : List Card) : Prop :=
  ∀ u v, CardEdge cards u v → Relation.ReflTransGen (CardEdge cards) v u → False

/-- Precondition of a `visit` call: every node on the recursion stack can
reach the node being visited. -/
def TempOK (g : List (String × List String)) (s : SortState) (n : String) :
    Prop :=
  ∀ t ∈ s.temp, GReach g t n

/-- The central ordering invariant: whenever `x` sits in `visited` (which
is built by prepending), every successor of `x` either was already visited
when `x` finished (it sits in the part of the list behind `x`) or sits on
the recursion stack and reaches back to `x` (a cycle witness). -/
def SS (g : List (String × List String)) (s : SortState) : Prop :=
  ∀ (L1 : List String) (x : String) (L2 : List String),
    s.visited = L1 ++ x :: L2 →
    ∀ y, GEdge g x y → y ∈ L2 ∨ (y ∈ s.temp ∧ GReach g y x)

/-- The initial DFS state and the final state of `topologicalSort`'s loop. -/
def sortInit : SortState := ⟨[], [], []⟩

/-- The final DFS state of `topologicalSort` on a card list. -/
def sortFinal (cards : List Card) : SortState :=
  cards.foldl (visitRoot (buildDependencyGraph cards) (cards.length + 1)) sortInit


/-- Witness cards for acyclic scenarios: `wbCard` references `waCard`. -/
def waCard : Card := ⟨"a", "TA", "a", [], [], none⟩

/-- Consumer witness card holding a reference slot naming `"a"`. -/
def wbCard : Card :=
  ⟨"b", "TB", "b", [("x", ⟨some (JsVal.str ""), some ⟨"a", "out"⟩⟩)], [], none⟩

/-- The two-card acyclic witness list. -/
def wabCards : List Card := [waCard, wbCard]


/-- A card of an unregistered type with no inputs (C7 counterexample). -/
def zCard : Card := ⟨"z", "T", "z", [], [], none⟩

/-- A producer card whose stored output value is a (non-numeric) string. -/
def pCard : Card := ⟨"p", "TP", "p", [], [("k", JsVal.str "oops")], none⟩





/-- The claim-side description of one axis's contribution to the composite
variant id: the stored string value, or the axis's declared default when
the axis is unset. -/
def storedOrDefault (m : List (String × InputSlot)) (a : StrategyAxis) : String :=
  match (lookupKV m a.key).bind (fun sl => sl.value) with
  | some (JsVal.str s) => s
  | _ => a.default

/-- Raw inputs selecting boundary = cantilever, load = point. -/
def wmInputs : List (String × InputSlot) :=
  [("boundary", ⟨some (JsVal.str "cantilever"), none⟩),
   ("load", ⟨some (JsVal.str "point"), none⟩)]

/-- A Beam card holding the cantilever/point axis selections. -/
def wmCard : Card := ⟨"bm", "BEAM", "bm", wmInputs, [], none⟩

/-- A card whose input `x` holds the non-numeric literal `"abc"` (C5). -/
def c5Card : Card :=
  ⟨"c5", "T5", "c5", [("x", ⟨some (JsVal.str "abc"), none⟩)], [], none⟩

/-- A config declaring `x` with default 5 and `y` with no default (C5). -/
def c5Cfg : List (String × ConfigEntry) :=
  [("x", ⟨some (JsVal.num 5)⟩), ("y", ⟨none⟩)]

/-- A registry with one type whose calculate returns a mixed
numeric/non-numeric output map (C6 witness). -/
def mixReg : Registry :=
  fun t =>
    if t = "TM" then
      some ⟨[], [], none,
        some (fun _ _ => Except.ok [("n", JsVal.num 1), ("s", JsVal.str "obj")])⟩
    else none

/-- A card of the mixed-output type. -/
def mCard : Card := ⟨"m", "TM", "m", [], [], none⟩

/-! #### Idempotence of the pass (C3): notions and concrete instances -/

/-- A reference held by one of a card's stored input slots. -/
def RefOf (c : Card) (r : Ref) : Prop :=
  ∃ p ∈ c.inputs, p.2.ref = some r

/-- Registries whose dynamic input-config functions read only the card's
stored inputs.  This holds for every definition built by
`createStrategyDefinition`, whose `getInputConfig` dispatches on the axis
values stored in `card.inputs`. -/
def RegInputsOnly (reg : Registry) : Prop :=
  ∀ t d f, reg t = some d → d.getInputConfig = some f →
    ∀ c1 c2 : Card, c1.inputs = c2.inputs → f c1 = f c2

/-- The seed snapshot of the pass, `new Map(cards.map(c => [c.id, c]))`. -/
def snapSeed (cards : List Card) : List (String × Card) :=
  cards.foldl (fun m c => setKV m c.id c) []

/-- The snapshot after the pass has processed every sorted id. -/
def snapFinal (reg : Registry) (cards : List Card) : List (String × Card) :=
  (topologicalSort cards).foldl (passStep reg) (snapSeed cards)

/-- A string view of a runtime value (used by the cycle registry's
calculate to make pass results visibly depend on the resolved input
without rational arithmetic). -/
def strOf : JsVal → String
  | JsVal.num _ => "n"
  | JsVal.str s => s
  | JsVal.beamModel _ _ _ _ _ _ => "b"

/-- A calculate that echoes its resolved `"in"` entry prefixed with `"s"`:
its output changes whenever the resolved input changes. -/
def c3wCalc (ins : List (String × JsVal)) (_ : List (String × InputSlot)) :
    Except String (List (String × JsVal)) :=
  Except.ok
    [("o", JsVal.str ("s" ++ strOf ((lookupKV ins "in").getD (JsVal.num 0))))]

/-- A registry with the single echoing type `"T"` (C3 counterexample). -/
def cycReg : Registry :=
  fun t => if t = "T" then some ⟨[], [], none, some c3wCalc⟩ else none

/-- A card referencing `cycY`'s output `o` (one half of a 2-cycle). -/
def cycX : Card :=
  ⟨"x", "T", "x", [("in", ⟨some (JsVal.str ""), some ⟨"y", "o"⟩⟩)], [], none⟩

/-- A card referencing `cycX`'s output `o` (the other half of the cycle). -/
def cycY : Card :=
  ⟨"y", "T", "y", [("in", ⟨some (JsVal.str ""), some ⟨"x", "o"⟩⟩)], [], none⟩

/-- A registry giving every type the echoing definition (C3 witness). -/
def c3wReg : Registry :=
  fun _ => some ⟨[], [], none, some c3wCalc⟩

/-- Decidable equality for `Except`, used to evaluate calculate results on
concrete inputs. -/
instance {ε α : Type} [DecidableEq ε] [DecidableEq α] : DecidableEq (Except ε α)
  | Except.ok a, Except.ok b =>
      if h : a = b then Decidable.isTrue (congrArg Except.ok h)
      else Decidable.isFalse (fun he => h (Except.ok.inj he))
  | Except.ok _, Except.error _ => Decidable.isFalse (fun he => Except.noConfusion he)
  | Except.error _, Except.ok _ => Decidable.isFalse (fun he => Except.noConfusion he)
  | Except.error a, Except.error b =>
      if h : a = b then Decidable.isTrue (congrArg Except.error h)
      else Decidable.isFalse (fun he => h (Except.error.inj he))

/-! ### Basic lemmas about the association-list operations -/

theorem foldl_preserve {α β : Type} (f : β → α → β) (P : β → Prop)
    (h : ∀ b a, P b → P (f b a)) : ∀ (l : List α) (b : β), P b → P (l.foldl f b) := by
  intro l
  induction l with
  | nil => intro b hb; exact hb
  | cons a t ih => intro b hb; exact ih (f b a) (h b a hb)

theorem lookupKV_nil {α : Type} (k : String) :
    lookupKV ([] : List (String × α)) k = none := rfl

theorem lookupKV_cons {α : Type} (p : String × α) (t : List (String × α))
    (k : String) :
    lookupKV (p :: t) k = if p.1 = k then some p.2 else lookupKV t k := by
  by_cases h : p.1 = k <;> simp [lookupKV, List.find?, h]

theorem lookupKV_append {α : Type} (m₁ m₂ : List (String × α)) (k : String) :
    lookupKV (m₁ ++ m₂) k =
      match lookupKV m₁ k with
      | some v => some v
      | none => lookupKV m₂ k := by
  induction m₁ with
  | nil => simp [lookupKV_nil]
  | cons p t ih =>
      by_cases h : p.1 = k <;> simp [lookupKV_cons, h, ih]

theorem lookupKV_setKV {α : Type} (m : List (String × α)) (k : String) (v : α)
    (k' : String) :
    lookupKV (setKV m k v) k' = if k' = k then some v else lookupKV m k' := by
  unfold setKV
  by_cases hk : (m.any (fun p => p.1 = k)) = true
  · rw [if_pos hk]
    induction m with
    | nil => simp at hk
    | cons p t ih =>
        simp only [List.any_cons, Bool.or_eq_true, decide_eq_true_eq] at hk
        by_cases hp : p.1 = k
        · by_cases he : k' = k
          · simp [lookupKV_cons, hp, he]
          · simp only [List.map_cons, hp, if_pos]
            rw [lookupKV_cons, lookupKV_cons]
            have h1 : ¬ ((k, v).1 = k') := fun h => he h.symm
            simp only [h1, if_neg, not_false_iff]
            have h2 : ¬ (p.1 = k') := by rw [hp]; exact fun h => he h.symm
            rw [if_neg h2]
            by_cases ht : (t.any (fun q => q.1 = k)) = true
            · exact ih ht
            · have hmapid : (t.map (fun q => if q.1 = k then (k, v) else q)) = t.map id := by
                apply List.map_congr_left
                intro q hq
                have hnk : ¬ (q.1 = k) := by
                  intro hqk
                  exact ht (List.any_eq_true.mpr ⟨q, hq, by simp [hqk]⟩)
                simp [hnk]
              rw [hmapid, List.map_id, if_neg he]
        · rcases hk with hk | hk
          · exact absurd hk hp
          · simp only [List.map_cons, hp, if_neg, not_false_iff]
            rw [lookupKV_cons, lookupKV_cons]
            by_cases hq : p.1 = k'
            · have hne : ¬ (k' = k) := fun h => hp (hq.trans h)
              simp [hq, hne]
            · rw [if_neg hq, if_neg hq]
              exact ih hk
  · rw [if_neg hk]
    rw [lookupKV_append]
    have hmk : lookupKV m k = none := by
      cases hm : lookupKV m k with
      | none => rfl
      | some w =>
          exfalso
          apply hk
          unfold lookupKV at hm
          cases hf : m.find? (fun p => p.1 = k) with
          | none => rw [hf] at hm; simp at hm
          | some p =>
              have hp := List.find?_some hf
              have hpm := List.mem_of_find?_eq_some hf
              exact List.any_eq_true.mpr ⟨p, hpm, hp⟩
    by_cases he : k' = k
    · subst he
      rw [hmk]
      simp [lookupKV_cons]
    · cases hm : lookupKV m k' with
      | some w => simp [hm, he]
      | none =>
          simp only [hm]
          rw [lookupKV_cons]
          have hkk : ¬ ((k, v).1 = k') := fun h => he h.symm
          rw [if_neg hkk, lookupKV_nil, if_neg he]

theorem hasKV_setKV {α : Type} (m : List (String × α)) (k : String) (v : α)
    (k' : String) :
    hasKV (setKV m k v) k' = (decide (k' = k) || hasKV m k') := by
  unfold hasKV
  rw [lookupKV_setKV]
  by_cases he : k' = k <;> simp [he]

/-! ### Characterization of the dependency graph -/

theorem initFold_lookup (cs : List Card) :
    ∀ (gacc : List (String × List String)) (n : String),
      lookupKV (cs.foldl initCardKey gacc) n =
        if (lookupKV gacc n).isSome then lookupKV gacc n
        else if n ∈ cs.map Card.id then some [] else none := by
  induction cs with
  | nil =>
      intro gacc n
      cases h : lookupKV gacc n <;> simp [h]
  | cons c t ih =>
      intro gacc n
      rw [List.foldl_cons, ih]
      unfold initCardKey hasKV
      by_cases h1 : (lookupKV gacc c.id).isSome
      · rw [if_pos h1]
        by_cases h2 : (lookupKV gacc n).isSome
        · simp [h2]
        · have hne : ¬ (n = c.id) := fun he => h2 (he ▸ h1)
          simp [h2, hne]
      · rw [if_neg h1]
        by_cases h3 : n = c.id
        · have hl : lookupKV (setKV gacc c.id []) n = some [] := by
            rw [lookupKV_setKV, if_pos h3]
          have h2 : ¬ (lookupKV gacc n).isSome = true := by
            rw [h3]; exact h1
          rw [hl]
          simp [h2, h3, h1]
        · have hl : lookupKV (setKV gacc c.id []) n = lookupKV gacc n := by
            rw [lookupKV_setKV]; simp [h3]
          rw [hl]
          by_cases h2 : (lookupKV gacc n).isSome
          · simp [h2]
          · simp [h2, h3]

theorem addEdgeStep_keys (cid : String) (g : List (String × List String))
    (inp : InputSlot) (x : String) :
    (lookupKV (addEdgeStep cid g inp) x).isSome = (lookupKV g x).isSome := by
  unfold addEdgeStep
  cases href : inp.ref with
  | none => rfl
  | some r =>
      by_cases hk : hasKV g r.cardId
      · by_cases hd : cid ∈ getEdges g r.cardId
        · simp [hk, hd]
        · simp only [hk, if_pos, hd, if_neg, not_false_iff]
          rw [lookupKV_setKV]
          by_cases hx : x = r.cardId
          · subst hx
            unfold hasKV at hk
            simp [hk]
          · simp [hx]
      · simp [hk]

theorem addEdgeStep_mem (cid : String) (g : List (String × List String))
    (inp : InputSlot) (u v : String) :
    v ∈ getEdges (addEdgeStep cid g inp) u ↔
      (v ∈ getEdges g u ∨
        ((lookupKV g u).isSome ∧ v = cid ∧ ∃ r, inp.ref = some r ∧ r.cardId = u)) := by
  unfold addEdgeStep
  cases href : inp.ref with
  | none => simp
  | some r =>
      by_cases hk : hasKV g r.cardId
      · by_cases hd : cid ∈ getEdges g r.cardId
        · simp only [hk, if_pos, hd]
          constructor
          · exact fun h => Or.inl h
          · rintro (h | ⟨hsome, rfl, r', hr', hru⟩)
            · exact h
            · cases hr'
              exact hru ▸ hd
        · simp only [hk, if_pos, hd, if_neg, not_false_iff]
          unfold getEdges
          rw [lookupKV_setKV]
          by_cases hu : u = r.cardId
          · subst hu
            rw [if_pos rfl]
            unfold hasKV at hk
            simp only [Option.getD_some, List.mem_append, List.mem_singleton]
            constructor
            · rintro (h | h)
              · exact Or.inl h
              · exact Or.inr ⟨hk, h, r, rfl, rfl⟩
            · rintro (h | ⟨hsome, rfl, r', hr', hru⟩)
              · exact Or.inl h
              · exact Or.inr rfl
          · rw [if_neg hu]
            constructor
            · exact fun h => Or.inl h
            · rintro (h | ⟨hsome, rfl, r', hr', hru⟩)
              · exact h
              · cases hr'
                exact absurd hru.symm hu
      · simp only [hk, if_neg, not_false_iff]
        constructor
        · exact fun h => Or.inl h
        · rintro (h | ⟨hsome, rfl, r', hr', hru⟩)
          · exact h
          · cases hr'
            exfalso
            apply hk
            unfold hasKV
            rw [hru]
            exact hsome

theorem slotFold_keys (cid : String) :
    ∀ (l : List InputSlot) (g : List (String × List String)) (x : String),
      (lookupKV (l.foldl (addEdgeStep cid) g) x).isSome = (lookupKV g x).isSome := by
  intro l
  induction l with
  | nil => intro g x; rfl
  | cons inp t ih =>
      intro g x
      rw [List.foldl_cons, ih]
      exact addEdgeStep_keys cid g inp x

theorem slotFold_mem (cid : String) :
    ∀ (l : List InputSlot) (g : List (String × List String)) (u v : String),
      v ∈ getEdges (l.foldl (addEdgeStep cid) g) u ↔
        (v ∈ getEdges g u ∨
          ((lookupKV g u).isSome ∧ v = cid ∧
            ∃ inp ∈ l, ∃ r, inp.ref = some r ∧ r.cardId = u)) := by
  intro l
  induction l with
  | nil => intro g u v; simp
  | cons inp t ih =>
      intro g u v
      rw [List.foldl_cons, ih, addEdgeStep_mem, addEdgeStep_keys]
      constructor
      · rintro ((h | ⟨hs, rfl, r, hr, hru⟩) | ⟨hs, rfl, inp', hinp', r, hr, hru⟩)
        · exact Or.inl h
        · exact Or.inr ⟨hs, rfl, inp, List.mem_cons_self inp t, r, hr, hru⟩
        · exact Or.inr ⟨hs, rfl, inp', List.mem_cons_of_mem inp hinp', r, hr, hru⟩
      · rintro (h | ⟨hs, rfl, inp', hinp', r, hr, hru⟩)
        · exact Or.inl (Or.inl h)
        · rcases List.mem_cons.mp hinp' with rfl | hmem
          · exact Or.inl (Or.inr ⟨hs, rfl, r, hr, hru⟩)
          · exact Or.inr ⟨hs, rfl, inp', hmem, r, hr, hru⟩

theorem addCardEdges_keys (g : List (String × List String)) (c : Card)
    (x : String) :
    (lookupKV (addCardEdges g c) x).isSome = (lookupKV g x).isSome := by
  unfold addCardEdges
  exact slotFold_keys c.id _ g x

theorem addCardEdges_mem (g : List (String × List String)) (c : Card)
    (u v : String) :
    v ∈ getEdges (addCardEdges g c) u ↔
      (v ∈ getEdges g u ∨ ((lookupKV g u).isSome ∧ v = c.id ∧ CardRef c u)) := by
  unfold addCardEdges CardRef
  rw [slotFold_mem]

theorem cardFold_keys :
    ∀ (cs : List Card) (g : List (String × List String)) (x : String),
      (lookupKV (cs.foldl addCardEdges g) x).isSome = (lookupKV g x).isSome := by
  intro cs
  induction cs with
  | nil => intro g x; rfl
  | cons c t ih =>
      intro g x
      rw [List.foldl_cons, ih]
      exact addCardEdges_keys g c x

theorem cardFold_mem :
    ∀ (cs : List Card) (g : List (String × List String)) (u v : String),
      v ∈ getEdges (cs.foldl addCardEdges g) u ↔
        (v ∈ getEdges g u ∨
          ((lookupKV g u).isSome ∧ ∃ c ∈ cs, c.id = v ∧ CardRef c u)) := by
  intro cs
  induction cs with
  | nil => intro g u v; simp
  | cons c t ih =>
      intro g u v
      rw [List.foldl_cons, ih, addCardEdges_mem, addCardEdges_keys]
      constructor
      · rintro ((h | ⟨hs, rfl, hcr⟩) | ⟨hs, c', hc', rfl, hcr⟩)
        · exact Or.inl h
        · exact Or.inr ⟨hs, c, List.mem_cons_self c t, rfl, hcr⟩
        · exact Or.inr ⟨hs, c', List.mem_cons_of_mem c hc', rfl, hcr⟩
      · rintro (h | ⟨hs, c', hc', rfl, hcr⟩)
        · exact Or.inl (Or.inl h)
        · rcases List.mem_cons.mp hc' with rfl | hmem
          · exact Or.inl (Or.inr ⟨hs, rfl, hcr⟩)
          · exact Or.inr ⟨hs, c', hmem, rfl, hcr⟩

/-- Full characterization of the built graph's edges: exactly the
dependency edges of the card list. -/
theorem getEdges_buildDependencyGraph (cards : List Card) (u v : String) :
    v ∈ getEdges (buildDependencyGraph cards) u ↔ CardEdge cards u v := by
  unfold buildDependencyGraph CardEdge cardIds
  rw [cardFold_mem]
  have h0 := initFold_lookup cards [] u
  rw [lookupKV_nil] at h0
  simp only [Option.isSome_none, Bool.false_eq_true, if_false] at h0
  have hedges : getEdges (cards.foldl initCardKey []) u = [] := by
    unfold getEdges
    rw [h0]
    by_cases hm : u ∈ cards.map Card.id <;> simp [hm]
  rw [hedges, h0]
  by_cases hm : u ∈ cards.map Card.id <;> simp [hm]

/-- Every endpoint of a built edge is a card id. -/
theorem getEdges_mem_ids (cards : List Card) (u v : String)
    (h : v ∈ getEdges (buildDependencyGraph cards) u) :
    u ∈ cardIds cards ∧ v ∈ cardIds cards := by
  rcases (getEdges_buildDependencyGraph cards u v).mp h with ⟨hu, c, hc, rfl, _⟩
  exact ⟨hu, List.mem_map.mpr ⟨c, hc, rfl⟩⟩

/-! ### Invariants of the DFS -/

theorem visit_temp (g : List (String × List String)) :
    ∀ (fuel : Nat) (s : SortState) (n : String), (visit g fuel s n).temp = s.temp := by
  intro fuel
  induction fuel with
  | zero => intro s n; rfl
  | succ f ih =>
      intro s n
      by_cases h1 : n ∈ s.temp
      · simp [visit, h1]
      · by_cases h2 : n ∈ s.visited
        · simp [visit, h1, h2]
        · have hfold : ∀ (l : List String) (st : SortState), st.temp = n :: s.temp →
              (l.foldl (visit g f) st).temp = n :: s.temp := by
            intro l
            induction l with
            | nil => intro st h; exact h
            | cons a t iht =>
                intro st h
                rw [List.foldl_cons]
                exact iht (visit g f st a) (by rw [ih st a]; exact h)
          simp only [visit, h1, h2, if_neg, not_false_iff, if_false]
          rw [hfold (getEdges g n) _ rfl]
          exact List.erase_cons_head n s.temp

theorem visit_order_eq_visited (g : List (String × List String)) :
    ∀ (fuel : Nat) (s : SortState) (n : String),
      s.order = s.visited → (visit g fuel s n).order = (visit g fuel s n).visited := by
  intro fuel
  induction fuel with
  | zero => intro s n h; exact h
  | succ f ih =>
      intro s n h
      by_cases h1 : n ∈ s.temp
      · simpa [visit, h1] using h
      · by_cases h2 : n ∈ s.visited
        · simpa [visit, h1, h2] using h
        · have hfold := foldl_preserve (visit g f)
            (fun st => st.order = st.visited) (fun b a hb => ih b a hb)
          simp only [visit, h1, h2, if_neg, not_false_iff, if_false]
          have h2' := hfold (getEdges g n) { s with temp := n :: s.temp } h
          rw [h2']

theorem visit_visited_mono (g : List (String × List String)) :
    ∀ (fuel : Nat) (s : SortState) (n : String) (x : String),
      x ∈ s.visited → x ∈ (visit g fuel s n).visited := by
  intro fuel
  induction fuel with
  | zero => intro s n x h; exact h
  | succ f ih =>
      intro s n x h
      by_cases h1 : n ∈ s.temp
      · simpa [visit, h1] using h
      · by_cases h2 : n ∈ s.visited
        · simpa [visit, h1, h2] using h
        · have hfold := foldl_preserve (visit g f)
            (fun st => x ∈ st.visited) (fun b a hb => ih b a x hb)
          simp only [visit, h1, h2, if_neg, not_false_iff, if_false]
          exact List.mem_cons_of_mem n
            (hfold (getEdges g n) { s with temp := n :: s.temp } h)

/-- Nodes sitting on the recursion stack when a visit starts cannot be
added to `visited` by that visit. -/
theorem visit_temp_shield (g : List (String × List String)) :
    ∀ (fuel : Nat) (s : SortState) (n : String) (x : String),
      x ∈ s.temp → x ∈ (visit g fuel s n).visited → x ∈ s.visited := by
  intro fuel
  induction fuel with
  | zero => intro s n x _ h; exact h
  | succ f ih =>
      intro s n x hx h
      by_cases h1 : n ∈ s.temp
      · simpa [visit, h1] using h
      · by_cases h2 : n ∈ s.visited
        · simpa [visit, h1, h2] using h
        · have hxn : x ≠ n := fun he => h1 (he ▸ hx)
          have hfold : ∀ (l : List String) (st : SortState),
              st.temp = n :: s.temp →
              x ∈ (l.foldl (visit g f) st).visited → x ∈ st.visited := by
            intro l
            induction l with
            | nil => intro st _ h; exact h
            | cons m t iht =>
                intro st hst h
                rw [List.foldl_cons] at h
                have h' := iht (visit g f st m) (by rw [visit_temp]; exact hst) h
                exact ih st m x (by rw [hst]; exact List.mem_cons_of_mem n hx) h'
          simp only [visit, h1, h2, if_neg, not_false_iff, if_false] at h
          rcases List.mem_cons.mp h with he | h
          · exact absurd he hxn
          · have := hfold (getEdges g n) { s with temp := n :: s.temp } rfl h
            exact this

theorem visit_nodup (g : List (String × List String)) :
    ∀ (fuel : Nat) (s : SortState) (n : String),
      s.visited.Nodup → (visit g fuel s n).visited.Nodup := by
  intro fuel
  induction fuel with
  | zero => intro s n h; exact h
  | succ f ih =>
      intro s n h
      by_cases h1 : n ∈ s.temp
      · simpa [visit, h1] using h
      · by_cases h2 : n ∈ s.visited
        · simpa [visit, h1, h2] using h
        · have hfoldnodup := foldl_preserve (visit g f)
            (fun st => st.visited.Nodup) (fun b a hb => ih b a hb)
          have hfold_shield : ∀ (l : List String) (st : SortState),
              st.temp = n :: s.temp →
              n ∈ (l.foldl (visit g f) st).visited → n ∈ st.visited := by
            intro l
            induction l with
            | nil => intro st _ h; exact h
            | cons m t iht =>
                intro st hst hn
                rw [List.foldl_cons] at hn
                have h' := iht (visit g f st m) (by rw [visit_temp]; exact hst) hn
                exact visit_temp_shield g f st m n
                  (by rw [hst]; exact List.mem_cons_self n s.temp) h'
          simp only [visit, h1, h2, if_neg, not_false_iff, if_false]
          refine List.nodup_cons.mpr ⟨?_, hfoldnodup (getEdges g n) _ h⟩
          intro hn
          exact h2 (hfold_shield (getEdges g n) { s with temp := n :: s.temp } rfl hn)

theorem visit_complete (g : List (String × List String)) (f : Nat)
    (s : SortState) (n : String) (hn : n ∉ s.temp) :
    n ∈ (visit g (f + 1) s n).visited ∨ n ∈ s.visited := by
  by_cases h2 : n ∈ s.visited
  · exact Or.inr h2
  · left
    simp only [visit, hn, h2, if_neg, not_false_iff, if_false]
    exact List.mem_cons_self n _

theorem visit_visited_sub (g : List (String × List String)) (A : List String)
    (hA : ∀ m x, x ∈ getEdges g m → x ∈ A) :
    ∀ (fuel : Nat) (s : SortState) (n : String),
      n ∈ A → (∀ x ∈ s.visited, x ∈ A) →
      ∀ x ∈ (visit g fuel s n).visited, x ∈ A := by
  intro fuel
  induction fuel with
  | zero => intro s n _ hs x hx; exact hs x hx
  | succ f ih =>
      intro s n hnA hs x hx
      by_cases h1 : n ∈ s.temp
      · exact hs x (by simpa [visit, h1] using hx)
      · by_cases h2 : n ∈ s.visited
        · exact hs x (by simpa [visit, h1, h2] using hx)
        · have hfold : ∀ (l : List String) (st : SortState),
              (∀ m ∈ l, m ∈ A) → (∀ y ∈ st.visited, y ∈ A) →
              ∀ y ∈ (l.foldl (visit g f) st).visited, y ∈ A := by
            intro l
            induction l with
            | nil => intro st _ hst y hy; exact hst y hy
            | cons m t iht =>
                intro st hl hst y hy
                rw [List.foldl_cons] at hy
                exact iht (visit g f st m)
                  (fun m' hm' => hl m' (List.mem_cons_of_mem m hm'))
                  (fun y' hy' => ih st m (hl m (List.mem_cons_self m t)) hst y' hy')
                  y hy
          simp only [visit, h1, h2, if_neg, not_false_iff, if_false] at hx
          rcases List.mem_cons.mp hx with rfl | hx
          · exact hnA
          · exact hfold (getEdges g n) { s with temp := n :: s.temp }
              (fun m hm => hA n m hm) hs x hx

theorem filter_notMem_le (A : List String) (n : String) (temp : List String) :
    (A.filter (fun x => x ∉ n :: temp)).length ≤
      (A.filter (fun x => x ∉ temp)).length := by
  induction A with
  | nil => simp
  | cons a A' ih =>
      by_cases h : a ∈ temp
      · have h2 : a ∈ n :: temp := List.mem_cons_of_mem n h
        have e1 : List.filter (fun x => x ∉ n :: temp) (a :: A') =
            List.filter (fun x => x ∉ n :: temp) A' := by
          simp [List.filter_cons, h2]
          exact fun _ => h
        have e2 : List.filter (fun x => x ∉ temp) (a :: A') =
            List.filter (fun x => x ∉ temp) A' := by
          simp [List.filter_cons, h]
        rw [e1, e2]
        exact ih
      · have e2 : List.filter (fun x => x ∉ temp) (a :: A') =
            a :: List.filter (fun x => x ∉ temp) A' := by
          simp [List.filter_cons, h]
        by_cases hn : a = n
        · have h2 : a ∈ n :: temp := by rw [hn]; exact List.mem_cons_self n temp
          have e1 : List.filter (fun x => x ∉ n :: temp) (a :: A') =
              List.filter (fun x => x ∉ n :: temp) A' := by
            simp [List.filter_cons, h2]
            exact fun hne => absurd hn hne
          rw [e1, e2]
          simp only [List.length_cons]
          omega
        · have h2 : a ∉ n :: temp := by
            intro hm
            rcases List.mem_cons.mp hm with hm | hm
            · exact hn hm
            · exact h hm
          have e1 : List.filter (fun x => x ∉ n :: temp) (a :: A') =
              a :: List.filter (fun x => x ∉ n :: temp) A' := by
            simp [List.filter_cons, h2]
            exact ⟨hn, h⟩
          rw [e1, e2]
          simp only [List.length_cons]
          omega

theorem filter_notMem_cons_lt (A : List String) (n : String) (temp : List String)
    (hnA : n ∈ A) (hnt : n ∉ temp) :
    (A.filter (fun x => x ∉ n :: temp)).length <
      (A.filter (fun x => x ∉ temp)).length := by
  induction A with
  | nil => simp at hnA
  | cons a A' ih =>
      by_cases han : a = n
      · subst han
        have h2 : a ∈ a :: temp := List.mem_cons_self a temp
        have e1 : List.filter (fun x => x ∉ a :: temp) (a :: A') =
            List.filter (fun x => x ∉ a :: temp) A' := by
          simp [List.filter_cons, h2]
        have e2 : List.filter (fun x => x ∉ temp) (a :: A') =
            a :: List.filter (fun x => x ∉ temp) A' := by
          simp [List.filter_cons, hnt]
        rw [e1, e2]
        have hle := filter_notMem_le A' a temp
        simp only [List.length_cons]
        omega
      · have hnA' : n ∈ A' := by
          rcases List.mem_cons.mp hnA with h | h
          · exact absurd h.symm han
          · exact h
        have hstep := ih hnA'
        by_cases ht : a ∈ temp
        · have h2 : a ∈ n :: temp := List.mem_cons_of_mem n ht
          have e1 : List.filter (fun x => x ∉ n :: temp) (a :: A') =
              List.filter (fun x => x ∉ n :: temp) A' := by
            simp [List.filter_cons, h2]
            exact fun _ => ht
          have e2 : List.filter (fun x => x ∉ temp) (a :: A') =
              List.filter (fun x => x ∉ temp) A' := by
            simp [List.filter_cons, ht]
          rw [e1, e2]
          exact hstep
        · have h2 : a ∉ n :: temp := by
            intro hm
            rcases List.mem_cons.mp hm with hm | hm
            · exact han hm
            · exact ht hm
          have e1 : List.filter (fun x => x ∉ n :: temp) (a :: A') =
              a :: List.filter (fun x => x ∉ n :: temp) A' := by
            simp [List.filter_cons, h2]
            exact ⟨han, ht⟩
          have e2 : List.filter (fun x => x ∉ temp) (a :: A') =
              a :: List.filter (fun x => x ∉ temp) A' := by
            simp [List.filter_cons, ht]
          rw [e1, e2]
          simp only [List.length_cons]
          omega

/-- Main DFS lemma: with acyclicity and enough fuel, a visit preserves the
ordering invariant and completes its node. -/
theorem visit_main (g : List (String × List String)) (A : List String)
    (hA : ∀ m x, x ∈ getEdges g m → x ∈ A) (hacy : AcyclicG g) :
    ∀ (fuel : Nat) (s : SortState) (n : String),
      (A.filter (fun x => x ∉ s.temp)).length < fuel →
      n ∈ A → TempOK g s n → SS g s →
      SS g (visit g fuel s n) ∧ (n ∈ (visit g fuel s n).visited ∨ n ∈ s.temp) := by
  intro fuel
  induction fuel with
  | zero => intro s n hgf; exact absurd hgf (Nat.not_lt_zero _)
  | succ f ih =>
      intro s n hgf hnA htok hss
      by_cases h1 : n ∈ s.temp
      · exact ⟨by simpa [visit, h1] using hss, Or.inr h1⟩
      · by_cases h2 : n ∈ s.visited
        · exact ⟨by simpa [visit, h1, h2] using hss,
            Or.inl (by simp [visit, h1, h2])⟩
        · have hdec := filter_notMem_cons_lt A n s.temp hnA h1
          have hgf' : (A.filter (fun x => x ∉ n :: s.temp)).length < f := by omega
          have hss1 : SS g { s with temp := n :: s.temp } := by
            intro L1 x L2 hv y hxy
            rcases hss L1 x L2 hv y hxy with h | ⟨ht, hr⟩
            · exact Or.inl h
            · exact Or.inr ⟨List.mem_cons_of_mem n ht, hr⟩
          have hfold : ∀ (l : List String) (st : SortState),
              (∀ m ∈ l, GEdge g n m) →
              st.temp = n :: s.temp → SS g st →
              SS g (l.foldl (visit g f) st) ∧
                (l.foldl (visit g f) st).temp = n :: s.temp ∧
                (∀ m ∈ l, m ∈ (l.foldl (visit g f) st).visited ∨ m ∈ n :: s.temp) := by
            intro l
            induction l with
            | nil =>
                intro st _ h2 h3
                exact ⟨h3, h2, by simp⟩
            | cons m t iht =>
                intro st hl hst hssst
                rw [List.foldl_cons]
                have hedge : GEdge g n m := hl m (List.mem_cons_self m t)
                have hmA : m ∈ A := hA n m hedge
                have htokm : TempOK g st m := by
                  intro t' ht'
                  rw [hst] at ht'
                  rcases List.mem_cons.mp ht' with rfl | ht'
                  · exact Relation.ReflTransGen.single hedge
                  · exact Relation.ReflTransGen.tail (htok t' ht') hedge
                have hgfst : (A.filter (fun x => x ∉ st.temp)).length < f := by
                  rw [hst]; exact hgf'
                obtain ⟨hss', hcomp'⟩ := ih st m hgfst hmA htokm hssst
                have htemp' : (visit g f st m).temp = n :: s.temp := by
                  rw [visit_temp]; exact hst
                obtain ⟨hssF, htempF, hcompF⟩ :=
                  iht (visit g f st m)
                    (fun m' hm' => hl m' (List.mem_cons_of_mem m hm')) htemp' hss'
                refine ⟨hssF, htempF, ?_⟩
                intro m' hm'
                rcases List.mem_cons.mp hm' with rfl | hm'
                · rcases hcomp' with hv | htm
                  · exact Or.inl (foldl_preserve (visit g f)
                      (fun st0 => m' ∈ st0.visited)
                      (fun b a hb => visit_visited_mono g f b a m' hb) t _ hv)
                  · right; rw [hst] at htm; exact htm
                · exact hcompF m' hm'
          obtain ⟨hssS2, htempS2, hcompS2⟩ :=
            hfold (getEdges g n) { s with temp := n :: s.temp }
              (fun m hm => hm) rfl hss1
          have hres : visit g (f + 1) s n =
              { visited := n :: ((getEdges g n).foldl (visit g f)
                  { s with temp := n :: s.temp }).visited
                temp := ((getEdges g n).foldl (visit g f)
                  { s with temp := n :: s.temp }).temp.erase n
                order := n :: ((getEdges g n).foldl (visit g f)
                  { s with temp := n :: s.temp }).order } := by
            simp only [visit, h1, h2, if_neg, not_false_iff, if_false]
          have htempRes : (visit g (f + 1) s n).temp = s.temp := by
            rw [hres]
            simp only [htempS2]
            exact List.erase_cons_head n s.temp
          constructor
          · intro L1 x L2 hv y hxy
            rw [hres] at hv
            simp only at hv
            rcases L1 with _ | ⟨a, L1'⟩
            · simp only [List.nil_append, List.cons.injEq] at hv
              obtain ⟨rfl, rfl⟩ := hv
              rcases hcompS2 y hxy with hyv | hyt
              · exact Or.inl hyv
              · rcases List.mem_cons.mp hyt with rfl | hyt
                · exact absurd Relation.ReflTransGen.refl (fun h => hacy y y hxy h)
                · right
                  rw [htempRes]
                  exact ⟨hyt, htok y hyt⟩
            · simp only [List.cons_append, List.cons.injEq] at hv
              obtain ⟨rfl, hv2⟩ := hv
              rcases hssS2 L1' x L2 hv2 y hxy with hyv | ⟨hyt, hyr⟩
              · exact Or.inl hyv
              · rw [htempS2] at hyt
                rcases List.mem_cons.mp hyt with rfl | hyt
                · exact absurd hyr (fun h => hacy x y hxy h)
                · right
                  rw [htempRes]
                  exact ⟨hyt, hyr⟩
          · left
            rw [hres]
            exact List.mem_cons_self n _

/-! ### Properties of `topologicalSort` -/

theorem visitRoot_temp (g : List (String × List String)) (fuel : Nat)
    (s : SortState) (c : Card) : (visitRoot g fuel s c).temp = s.temp := by
  unfold visitRoot
  by_cases h : c.id ∈ s.visited
  · rw [if_pos h]
  · rw [if_neg h]; exact visit_temp g fuel s c.id

theorem topFold_temp (g : List (String × List String)) (fuel : Nat)
    (cs : List Card) (s : SortState) (h : s.temp = []) :
    (cs.foldl (visitRoot g fuel) s).temp = [] :=
  foldl_preserve (visitRoot g fuel) (fun st => st.temp = [])
    (fun b a hb => by
      show (visitRoot g fuel b a).temp = []
      rw [visitRoot_temp]; exact hb) cs s h

theorem topFold_order (g : List (String × List String)) (fuel : Nat)
    (cs : List Card) (s : SortState) (h : s.order = s.visited) :
    (cs.foldl (visitRoot g fuel) s).order = (cs.foldl (visitRoot g fuel) s).visited :=
  foldl_preserve (visitRoot g fuel) (fun st => st.order = st.visited)
    (fun b a hb => by
      unfold visitRoot
      by_cases hc : a.id ∈ b.visited
      · rw [if_pos hc]; exact hb
      · rw [if_neg hc]; exact visit_order_eq_visited g fuel b a.id hb)
    cs s h

theorem topFold_nodup (g : List (String × List String)) (fuel : Nat)
    (cs : List Card) (s : SortState) (h : s.visited.Nodup) :
    (cs.foldl (visitRoot g fuel) s).visited.Nodup :=
  foldl_preserve (visitRoot g fuel) (fun st => st.visited.Nodup)
    (fun b a hb => by
      unfold visitRoot
      by_cases hc : a.id ∈ b.visited
      · rw [if_pos hc]; exact hb
      · rw [if_neg hc]; exact visit_nodup g fuel b a.id hb)
    cs s h

theorem topFold_mono (g : List (String × List String)) (fuel : Nat)
    (cs : List Card) (s : SortState) (x : String) (h : x ∈ s.visited) :
    x ∈ (cs.foldl (visitRoot g fuel) s).visited :=
  foldl_preserve (visitRoot g fuel) (fun st => x ∈ st.visited)
    (fun b a hb => by
      unfold visitRoot
      by_cases hc : a.id ∈ b.visited
      · rw [if_pos hc]; exact hb
      · rw [if_neg hc]; exact visit_visited_mono g fuel b a.id x hb)
    cs s h

theorem topFold_sub (g : List (String × List String)) (fuel : Nat)
    (A : List String) (hA : ∀ m x, x ∈ getEdges g m → x ∈ A) :
    ∀ (cs : List Card) (s : SortState),
      (∀ c ∈ cs, c.id ∈ A) → (∀ x ∈ s.visited, x ∈ A) →
      ∀ x ∈ (cs.foldl (visitRoot g fuel) s).visited, x ∈ A := by
  intro cs
  induction cs with
  | nil => intro s _ hs x hx; exact hs x hx
  | cons c t ih =>
      intro s hcs hs x hx
      rw [List.foldl_cons] at hx
      refine ih (visitRoot g fuel s c)
        (fun c' hc' => hcs c' (List.mem_cons_of_mem c hc')) ?_ x hx
      intro y hy
      unfold visitRoot at hy
      by_cases hc : c.id ∈ s.visited
      · rw [if_pos hc] at hy; exact hs y hy
      · rw [if_neg hc] at hy
        exact visit_visited_sub g A hA fuel s c.id
          (hcs c (List.mem_cons_self c t)) hs y hy

theorem topFold_complete (g : List (String × List String)) (f : Nat) :
    ∀ (cs : List Card) (s : SortState), s.temp = [] →
      ∀ c ∈ cs, c.id ∈ (cs.foldl (visitRoot g (f + 1)) s).visited := by
  intro cs
  induction cs with
  | nil => intro s _ c hc; simp at hc
  | cons c t ih =>
      intro s htemp c' hc'
      rw [List.foldl_cons]
      rcases List.mem_cons.mp hc' with rfl | hc'
      · have hmem : c'.id ∈ (visitRoot g (f + 1) s c').visited := by
          unfold visitRoot
          by_cases hc : c'.id ∈ s.visited
          · rw [if_pos hc]; exact hc
          · rw [if_neg hc]
            rcases visit_complete g f s c'.id (by rw [htemp]; simp) with h | h
            · exact h
            · exact absurd h hc
        exact topFold_mono g (f + 1) t _ c'.id hmem
      · exact ih (visitRoot g (f + 1) s c) (by rw [visitRoot_temp]; exact htemp) c' hc'

theorem topFold_SS (g : List (String × List String)) (fuel : Nat)
    (A : List String) (hA : ∀ m x, x ∈ getEdges g m → x ∈ A)
    (hacy : AcyclicG g) (hfuel : A.length < fuel) :
    ∀ (cs : List Card) (s : SortState),
      (∀ c ∈ cs, c.id ∈ A) → s.temp = [] → SS g s →
      SS g (cs.foldl (visitRoot g fuel) s) := by
  intro cs
  induction cs with
  | nil => intro s _ _ hss; exact hss
  | cons c t ih =>
      intro s hcs htemp hss
      rw [List.foldl_cons]
      refine ih (visitRoot g fuel s c)
        (fun c' hc' => hcs c' (List.mem_cons_of_mem c hc'))
        (by rw [visitRoot_temp]; exact htemp) ?_
      unfold visitRoot
      by_cases hc : c.id ∈ s.visited
      · rw [if_pos hc]; exact hss
      · rw [if_neg hc]
        have hfilter : (A.filter (fun x => x ∉ s.temp)).length = A.length := by
          rw [htemp]
          have : A.filter (fun x => x ∉ ([] : List String)) = A := by
            induction A with
            | nil => rfl
            | cons a A' ihA => simp [List.filter_cons]
          rw [this]
        exact (visit_main g A hA hacy fuel s c.id
          (by rw [hfilter]; exact hfuel)
          (hcs c (List.mem_cons_self c t))
          (by intro t' ht'; rw [htemp] at ht'; simp at ht')
          hss).1

theorem indexOf_lt_of_split :
    ∀ (L1 : List String) (u : String) (L2 : List String) (v : String),
      (L1 ++ u :: L2).Nodup → v ∈ L2 →
      (L1 ++ u :: L2).indexOf u < (L1 ++ u :: L2).indexOf v := by
  intro L1
  induction L1 with
  | nil =>
      intro u L2 v hnd hv
      simp only [List.nil_append]
      rw [List.indexOf_cons_self]
      have hvu : u ≠ v := by
        rintro rfl
        exact (List.nodup_cons.mp hnd).1 hv
      rw [List.indexOf_cons_ne _ hvu]
      exact Nat.succ_pos _
  | cons a L1' ih =>
      intro u L2 v hnd hv
      have hnd2 : (a :: (L1' ++ u :: L2)).Nodup := by simpa using hnd
      have hnd' : (L1' ++ u :: L2).Nodup := (List.nodup_cons.mp hnd2).2
      have hamem : a ∉ L1' ++ u :: L2 := (List.nodup_cons.mp hnd2).1
      have hau : a ≠ u := by
        intro he
        apply hamem
        rw [he]
        exact List.mem_append_right L1' (List.mem_cons_self u L2)
      have hav : a ≠ v := by
        intro he
        apply hamem
        rw [he]
        exact List.mem_append_right L1' (List.mem_cons_of_mem u hv)
      show List.indexOf u (a :: (L1' ++ u :: L2)) < List.indexOf v (a :: (L1' ++ u :: L2))
      rw [List.indexOf_cons_ne _ hau, List.indexOf_cons_ne _ hav]
      exact Nat.succ_lt_succ (ih u L2 v hnd' hv)

theorem topologicalSort_eq_final (cards : List Card) :
    topologicalSort cards = (sortFinal cards).order := rfl

theorem sortFinal_order_eq_visited (cards : List Card) :
    (sortFinal cards).order = (sortFinal cards).visited :=
  topFold_order _ _ cards sortInit rfl

theorem topologicalSort_nodup (cards : List Card) :
    (topologicalSort cards).Nodup := by
  rw [topologicalSort_eq_final, sortFinal_order_eq_visited]
  exact topFold_nodup _ _ cards sortInit List.nodup_nil

theorem topologicalSort_complete (cards : List Card) :
    ∀ c ∈ cards, c.id ∈ topologicalSort cards := by
  intro c hc
  rw [topologicalSort_eq_final, sortFinal_order_eq_visited]
  exact topFold_complete _ cards.length cards sortInit rfl c hc

theorem topologicalSort_sub (cards : List Card) :
    ∀ x ∈ topologicalSort cards, x ∈ cardIds cards := by
  intro x hx
  rw [topologicalSort_eq_final, sortFinal_order_eq_visited] at hx
  exact topFold_sub _ _ (cardIds cards)
    (fun m y hy => (getEdges_mem_ids cards m y hy).2)
    cards sortInit (fun c hc => List.mem_map.mpr ⟨c, hc, rfl⟩)
    (fun y hy => by simp [sortInit] at hy) x hx

/-- Transfer of reachability between graph edges and card edges. -/
theorem greach_iff_cardreach (cards : List Card) (u v : String) :
    GReach (buildDependencyGraph cards) u v ↔
      Relation.ReflTransGen (CardEdge cards) u v := by
  constructor
  · intro h
    exact Relation.ReflTransGen.mono
      (fun a b hab => (getEdges_buildDependencyGraph cards a b).mp hab) h
  · intro h
    exact Relation.ReflTransGen.mono
      (fun a b hab => (getEdges_buildDependencyGraph cards a b).mpr hab) h

theorem acyclicG_of_acyclicCards (cards : List Card)
    (h : AcyclicCards cards) : AcyclicG (buildDependencyGraph cards) := by
  intro u v he hr
  exact h u v ((getEdges_buildDependencyGraph cards u v).mp he)
    ((greach_iff_cardreach cards v u).mp hr)

/-- For acyclic card lists, the final DFS state satisfies the ordering
property with an empty stack. -/
theorem sortFinal_sorted (cards : List Card) (hacy : AcyclicCards cards) :
    ∀ u v, CardEdge cards u v →
      (topologicalSort cards).indexOf u < (topologicalSort cards).indexOf v := by
  intro u v he
  have hgedge : GEdge (buildDependencyGraph cards) u v :=
    (getEdges_buildDependencyGraph cards u v).mpr he
  have hSS : SS (buildDependencyGraph cards) (sortFinal cards) :=
    topFold_SS _ (cards.length + 1) (cardIds cards)
      (fun m y hy => (getEdges_mem_ids cards m y hy).2)
      (acyclicG_of_acyclicCards cards hacy)
      (by unfold cardIds; rw [List.length_map]; exact Nat.lt_succ_self _)
      cards sortInit (fun c hc => List.mem_map.mpr ⟨c, hc, rfl⟩) rfl
      (by intro L1 x L2 hv y hxy; simp [sortInit] at hv)
  have htemp : (sortFinal cards).temp = [] :=
    topFold_temp _ (cards.length + 1) cards sortInit rfl
  have hu : u ∈ (sortFinal cards).visited := by
    rcases List.mem_map.mp he.1 with ⟨c, hc, rfl⟩
    rw [← sortFinal_order_eq_visited, ← topologicalSort_eq_final]
    exact topologicalSort_complete cards c hc
  rcases List.append_of_mem hu with ⟨L1, L2, hsplit⟩
  rcases hSS L1 u L2 hsplit v hgedge with hvL2 | ⟨hvt, _⟩
  · have hnd : (sortFinal cards).visited.Nodup :=
      topFold_nodup _ _ cards sortInit List.nodup_nil
    rw [topologicalSort_eq_final, sortFinal_order_eq_visited, hsplit]
    rw [hsplit] at hnd
    exact indexOf_lt_of_split L1 u L2 v hnd hvL2
  · rw [htemp] at hvt
    simp at hvt

/-! ### Lemmas about the recalculation pass -/

theorem processCard_cases (reg : Registry) (snap : List (String × Card))
    (c : Card) :
    (∃ d f m, reg c.type = some d ∧ d.calculate = some f ∧
      f (resolveInputs snap c d) c.inputs = Except.ok m ∧
      processCard reg snap c = { c with outputs := m, error := none }) ∨
    (∃ d f msg, reg c.type = some d ∧ d.calculate = some f ∧
      f (resolveInputs snap c d) c.inputs = Except.error msg ∧
      processCard reg snap c = { c with outputs := [], error := some msg }) ∨
    ((reg c.type = none ∨ ∃ d, reg c.type = some d ∧ d.calculate = none) ∧
      processCard reg snap c = { c with outputs := [], error := none }) := by
  cases hd : reg c.type with
  | none =>
      refine Or.inr (Or.inr ⟨Or.inl rfl, ?_⟩)
      simp only [processCard, hd]
  | some d =>
      cases hc : d.calculate with
      | none =>
          refine Or.inr (Or.inr ⟨Or.inr ⟨d, rfl, hc⟩, ?_⟩)
          simp only [processCard, hd, hc]
      | some f =>
          cases hf : f (resolveInputs snap c d) c.inputs with
          | ok m =>
              refine Or.inl ⟨d, f, m, rfl, hc, hf, ?_⟩
              simp only [processCard, hd, hc, hf]
          | error msg =>
              refine Or.inr (Or.inl ⟨d, f, msg, rfl, hc, hf, ?_⟩)
              simp only [processCard, hd, hc, hf]

theorem processCard_skeleton (reg : Registry) (snap : List (String × Card))
    (c : Card) :
    (processCard reg snap c).id = c.id ∧ (processCard reg snap c).type = c.type ∧
    (processCard reg snap c).aliasName = c.aliasName ∧
    (processCard reg snap c).inputs = c.inputs := by
  rcases processCard_cases reg snap c with
    ⟨d, f, m, _, _, _, heq⟩ | ⟨d, f, msg, _, _, _, heq⟩ | ⟨_, heq⟩ <;>
    rw [heq] <;> exact ⟨rfl, rfl, rfl, rfl⟩

theorem snapSeed_isSome (cs : List Card) :
    ∀ (m : List (String × Card)) (x : String),
      (lookupKV (cs.foldl (fun m c => setKV m c.id c) m) x).isSome = true ↔
        (x ∈ cardIds cs ∨ (lookupKV m x).isSome = true) := by
  induction cs with
  | nil => intro m x; simp [cardIds]
  | cons c t ih =>
      intro m x
      rw [List.foldl_cons, ih]
      by_cases hx : x = c.id
      · subst hx
        rw [lookupKV_setKV]
        simp [cardIds]
      · rw [lookupKV_setKV, if_neg hx]
        constructor
        · rintro (h | h)
          · exact Or.inl (by simp [cardIds] at h ⊢; exact Or.inr h)
          · exact Or.inr h
        · rintro (h | h)
          · simp only [cardIds, List.map_cons, List.mem_cons] at h
            rcases h with h | h
            · exact absurd h hx
            · exact Or.inl (by simpa [cardIds] using h)
          · exact Or.inr h

theorem passStep_keys (reg : Registry) (m : List (String × Card))
    (id x : String) :
    (lookupKV (passStep reg m id) x).isSome = (lookupKV m x).isSome := by
  unfold passStep
  cases h : lookupKV m id with
  | none => rfl
  | some card =>
      rw [lookupKV_setKV]
      by_cases hx : x = id
      · subst hx; rw [if_pos rfl, h]; rfl
      · rw [if_neg hx]

theorem passStep_other (reg : Registry) (m : List (String × Card))
    (id x : String) (hx : x ≠ id) :
    lookupKV (passStep reg m id) x = lookupKV m x := by
  unfold passStep
  cases h : lookupKV m id with
  | none => rfl
  | some card => rw [lookupKV_setKV, if_neg hx]

theorem passFold_keys (reg : Registry) :
    ∀ (ids : List String) (m : List (String × Card)) (x : String),
      (lookupKV (ids.foldl (passStep reg) m) x).isSome = (lookupKV m x).isSome := by
  intro ids
  induction ids with
  | nil => intro m x; rfl
  | cons id t ih =>
      intro m x
      rw [List.foldl_cons, ih, passStep_keys]

theorem passFold_untouched (reg : Registry) :
    ∀ (ids : List String) (m : List (String × Card)) (x : String), x ∉ ids →
      lookupKV (ids.foldl (passStep reg) m) x = lookupKV m x := by
  intro ids
  induction ids with
  | nil => intro m x _; rfl
  | cons id t ih =>
      intro m x hx
      rw [List.foldl_cons, ih _ x (fun h => hx (List.mem_cons_of_mem id h)),
        passStep_other reg m id x (fun h => hx (h ▸ List.mem_cons_self id t))]

theorem passFold_image (reg : Registry) :
    ∀ (ids : List String) (m : List (String × Card)) (x : String),
      x ∈ ids → (lookupKV m x).isSome = true →
      ∃ snap c0, lookupKV (ids.foldl (passStep reg) m) x =
        some (processCard reg snap c0) := by
  intro ids
  induction ids with
  | nil => intro m x hx; simp at hx
  | cons id t ih =>
      intro m x hx hsome
      rw [List.foldl_cons]
      by_cases hxt : x ∈ t
      · exact ih (passStep reg m id) x hxt (by rw [passStep_keys]; exact hsome)
      · have hxid : x = id := by
          rcases List.mem_cons.mp hx with h | h
          · exact h
          · exact absurd h hxt
        subst hxid
        obtain ⟨card, hcard⟩ := Option.isSome_iff_exists.mp hsome
        have hset : lookupKV (passStep reg m x) x = some (processCard reg m card) := by
          unfold passStep
          rw [hcard, lookupKV_setKV, if_pos rfl]
        rw [passFold_untouched reg t _ x hxt, hset]
        exact ⟨m, card, rfl⟩

/-- Every card of the returned list is the processing result of some card
against some snapshot: the pass visits every id. -/
theorem recalculateAll_entries (reg : Registry) (cards : List Card)
    (c' : Card) (h : c' ∈ recalculateAll reg cards) :
    ∃ snap c0, c' = processCard reg snap c0 := by
  unfold recalculateAll at h
  rcases List.mem_map.mp h with ⟨c, hc, rfl⟩
  have hidsome :
      (lookupKV (cards.foldl (fun m c => setKV m c.id c) []) c.id).isSome = true :=
    (snapSeed_isSome cards [] c.id).mpr
      (Or.inl (List.mem_map.mpr ⟨c, hc, rfl⟩))
  obtain ⟨snap, c0, heq⟩ := passFold_image reg (topologicalSort cards)
    (cards.foldl (fun m c => setKV m c.id c) []) c.id
    (topologicalSort_complete cards c hc) hidsome
  rw [heq]
  exact ⟨snap, c0, rfl⟩

/-! ### Lemmas about two-phase input resolution -/

theorem lookupKV_eq_none_iff {α : Type} (m : List (String × α)) (k : String) :
    lookupKV m k = none ↔ k ∉ m.map Prod.fst := by
  induction m with
  | nil => simp [lookupKV_nil]
  | cons p t ih =>
      rw [lookupKV_cons, List.map_cons, List.mem_cons]
      by_cases h : p.1 = k
      · rw [if_pos h]
        constructor
        · intro hn; exact absurd hn (by simp)
        · intro hn; exact absurd (Or.inl h.symm) hn
      · rw [if_neg h, ih]
        constructor
        · intro hn hc
          rcases hc with hc | hc
          · exact h hc.symm
          · exact hn hc
        · intro hn hc
          exact hn (Or.inr hc)

theorem lookupKV_mem {α : Type} (m : List (String × α)) (k : String) (v : α)
    (h : lookupKV m k = some v) : (k, v) ∈ m := by
  unfold lookupKV at h
  cases hf : m.find? (fun p => p.1 = k) with
  | none => rw [hf] at h; simp at h
  | some p =>
      rw [hf] at h
      simp only [Option.map_some'] at h
      have hk := List.find?_some hf
      have hm := List.mem_of_find?_eq_some hf
      have hpe : p = (k, v) := by
        rcases p with ⟨p1, p2⟩
        simp only [decide_eq_true_eq] at hk
        simp only at h
        rw [hk, Option.some.inj h]
      rw [← hpe]
      exact hm

theorem phase1Step_eq (snap : List (String × Card)) (card : Card)
    (acc : List (String × JsVal)) (kv : String × ConfigEntry) :
    phase1Step snap card acc kv =
      match phase1Val snap card kv.1 kv.2 with
      | some v => setKV acc kv.1 v
      | none => acc := by
  obtain ⟨k0, e0⟩ := kv
  obtain ⟨edef⟩ := e0
  cases hl : lookupKV card.inputs k0 with
  | none => cases edef <;> simp [phase1Step, phase1Val, hl]
  | some inp =>
      obtain ⟨ival, iref⟩ := inp
      cases iref with
      | some r => simp [phase1Step, phase1Val, hl]
      | none =>
          cases ival with
          | none => cases edef <;> simp [phase1Step, phase1Val, hl]
          | some v =>
              by_cases hv : v = JsVal.str ""
              · subst hv
                cases edef <;> simp [phase1Step, phase1Val, hl]
              · cases edef <;> simp [phase1Step, phase1Val, hl, hv]

theorem phase1Fold_untouched (snap : List (String × Card)) (card : Card) :
    ∀ (cfg : List (String × ConfigEntry)) (acc : List (String × JsVal))
      (k : String), k ∉ cfg.map Prod.fst →
      lookupKV (cfg.foldl (phase1Step snap card) acc) k = lookupKV acc k := by
  intro cfg
  induction cfg with
  | nil => intro acc k _; rfl
  | cons kv t ih =>
      intro acc k hk
      rw [List.foldl_cons,
        ih _ k (fun h => hk (List.mem_cons_of_mem _ h)), phase1Step_eq]
      have hne : kv.1 ≠ k := fun h => hk (h ▸ List.mem_cons_self kv.1 _)
      cases phase1Val snap card kv.1 kv.2 with
      | none => rfl
      | some v => rw [lookupKV_setKV, if_neg (fun h => hne h.symm)]

theorem phase1Fold_mem (snap : List (String × Card)) (card : Card) :
    ∀ (cfg : List (String × ConfigEntry)) (acc : List (String × JsVal))
      (k : String) (e : ConfigEntry),
      (cfg.map Prod.fst).Nodup → (k, e) ∈ cfg →
      lookupKV (cfg.foldl (phase1Step snap card) acc) k =
        match phase1Val snap card k e with
        | some v => some v
        | none => lookupKV acc k := by
  intro cfg
  induction cfg with
  | nil => intro acc k e _ he; simp at he
  | cons kv t ih =>
      intro acc k e hnd he
      rw [List.foldl_cons]
      rw [List.map_cons] at hnd
      have hnd' := (List.nodup_cons.mp hnd).2
      have hhead := (List.nodup_cons.mp hnd).1
      rcases List.mem_cons.mp he with rfl | he
      · have hkt : k ∉ t.map Prod.fst := hhead
        rw [phase1Fold_untouched snap card t _ k hkt, phase1Step_eq]
        cases phase1Val snap card k e with
        | none => rfl
        | some v => simp [lookupKV_setKV]
      · have hkk : kv.1 ≠ k := by
          intro h
          exact hhead (h ▸ List.mem_map.mpr ⟨(k, e), he, rfl⟩)
        have hacc : lookupKV (phase1Step snap card acc kv) k = lookupKV acc k := by
          rw [phase1Step_eq]
          cases phase1Val snap card kv.1 kv.2 with
          | none => rfl
          | some v => rw [lookupKV_setKV, if_neg (fun h => hkk h.symm)]
        rw [ih _ k e hnd' he, hacc]

theorem phase2Step_eq (snap : List (String × Card))
    (acc : List (String × JsVal)) (kv : String × InputSlot) :
    phase2Step snap acc kv =
      if hasKV acc kv.1 then acc else setKV acc kv.1 (phase2Val snap kv.2) := by
  unfold phase2Step phase2Val
  cases kv.2.ref <;> rfl

theorem phase2Fold_preserved (snap : List (String × Card)) :
    ∀ (inputs : List (String × InputSlot)) (acc : List (String × JsVal))
      (k : String) (v : JsVal), lookupKV acc k = some v →
      lookupKV (inputs.foldl (phase2Step snap) acc) k = some v := by
  intro inputs
  induction inputs with
  | nil => intro acc k v h; exact h
  | cons kv t ih =>
      intro acc k v h
      rw [List.foldl_cons]
      refine ih _ k v ?_
      rw [phase2Step_eq]
      by_cases hh : hasKV acc kv.1
      · rw [if_pos hh]; exact h
      · rw [if_neg hh, lookupKV_setKV]
        have hne : k ≠ kv.1 := by
          intro he
          apply hh
          unfold hasKV
          rw [← he, h]
          rfl
        rw [if_neg hne]
        exact h

theorem phase2Fold_untouched (snap : List (String × Card)) :
    ∀ (inputs : List (String × InputSlot)) (acc : List (String × JsVal))
      (k : String), k ∉ inputs.map Prod.fst →
      lookupKV (inputs.foldl (phase2Step snap) acc) k = lookupKV acc k := by
  intro inputs
  induction inputs with
  | nil => intro acc k _; rfl
  | cons kv t ih =>
      intro acc k hk
      rw [List.foldl_cons, ih _ k (fun h => hk (List.mem_cons_of_mem _ h)),
        phase2Step_eq]
      have hne : kv.1 ≠ k := fun h => hk (h ▸ List.mem_cons_self kv.1 _)
      by_cases hh : hasKV acc kv.1
      · rw [if_pos hh]
      · rw [if_neg hh, lookupKV_setKV, if_neg (fun h => hne h.symm)]

theorem phase2Fold_new (snap : List (String × Card)) :
    ∀ (inputs : List (String × InputSlot)) (acc : List (String × JsVal))
      (k : String) (inp : InputSlot),
      (inputs.map Prod.fst).Nodup → (k, inp) ∈ inputs → lookupKV acc k = none →
      lookupKV (inputs.foldl (phase2Step snap) acc) k =
        some (phase2Val snap inp) := by
  intro inputs
  induction inputs with
  | nil => intro acc k inp _ he; simp at he
  | cons kv t ih =>
      intro acc k inp hnd he hacc
      rw [List.foldl_cons]
      rw [List.map_cons] at hnd
      have hnd' := (List.nodup_cons.mp hnd).2
      have hhead := (List.nodup_cons.mp hnd).1
      rcases List.mem_cons.mp he with rfl | he
      · have hset : lookupKV (phase2Step snap acc (k, inp)) k =
            some (phase2Val snap inp) := by
          rw [phase2Step_eq]
          have hh : ¬ hasKV acc k := by unfold hasKV; rw [hacc]; simp
          rw [if_neg (by simpa using hh), lookupKV_setKV, if_pos rfl]
        exact phase2Fold_preserved snap t _ k _ hset
      · have hkk : kv.1 ≠ k := by
          intro h
          exact hhead (h ▸ List.mem_map.mpr ⟨(k, inp), he, rfl⟩)
        refine ih _ k inp hnd' he ?_
        rw [phase2Step_eq]
        by_cases hh : hasKV acc kv.1
        · rw [if_pos hh]; exact hacc
        · rw [if_neg hh, lookupKV_setKV, if_neg (fun h => hkk h.symm)]
          exact hacc

/-! ### Lemmas about input-slot mutations -/

theorem mem_setKV {α : Type} (m : List (String × α)) (k : String) (v : α)
    (p : String × α) (h : p ∈ setKV m k v) : p = (k, v) ∨ p ∈ m := by
  unfold setKV at h
  by_cases hk : (m.any (fun q => q.1 = k)) = true
  · rw [if_pos hk] at h
    rcases List.mem_map.mp h with ⟨q, hq, hpq⟩
    by_cases hq1 : q.1 = k
    · rw [if_pos hq1] at hpq
      exact Or.inl hpq.symm
    · rw [if_neg hq1] at hpq
      exact Or.inr (hpq ▸ hq)
  · rw [if_neg hk] at h
    rcases List.mem_append.mp h with h | h
    · exact Or.inr h
    · exact Or.inl (by simpa using h)

theorem snapSeed_entries :
    ∀ (cs : List Card) (m : List (String × Card)) (x : String) (c0 : Card),
      lookupKV (cs.foldl (fun m c => setKV m c.id c) m) x = some c0 →
      c0 ∈ cs ∨ lookupKV m x = some c0 := by
  intro cs
  induction cs with
  | nil => intro m x c0 h; exact Or.inr h
  | cons c t ih =>
      intro m x c0 h
      rw [List.foldl_cons] at h
      rcases ih (setKV m c.id c) x c0 h with h | h
      · exact Or.inl (List.mem_cons_of_mem c h)
      · rw [lookupKV_setKV] at h
        by_cases hx : x = c.id
        · rw [if_pos hx] at h
          exact Or.inl (by rw [← Option.some.inj h]; exact List.mem_cons_self c t)
        · rw [if_neg hx] at h
          exact Or.inr h

/-- Every snapshot entry of the pass carries the inputs of some card of
the input list (processing never edits inputs). -/
theorem recalculateAll_inputs (reg : Registry) (cards : List Card)
    (c' : Card) (h : c' ∈ recalculateAll reg cards) :
    ∃ c ∈ cards, c'.inputs = c.inputs := by
  unfold recalculateAll at h
  rcases List.mem_map.mp h with ⟨c, hc, rfl⟩
  have hP : ∀ (ids : List String) (m : List (String × Card)),
      (∀ x c0, lookupKV m x = some c0 → ∃ cc ∈ cards, c0.inputs = cc.inputs) →
      (∀ x c0, lookupKV (ids.foldl (passStep reg) m) x = some c0 →
        ∃ cc ∈ cards, c0.inputs = cc.inputs) := by
    intro ids
    induction ids with
    | nil => intro m hm; exact hm
    | cons id t ih =>
        intro m hm
        rw [List.foldl_cons]
        refine ih (passStep reg m id) ?_
        intro x c0 hx
        unfold passStep at hx
        cases hl : lookupKV m id with
        | none => rw [hl] at hx; exact hm x c0 hx
        | some card =>
            rw [hl, lookupKV_setKV] at hx
            by_cases hxi : x = id
            · rw [if_pos hxi] at hx
              obtain ⟨cc, hcc, hinp⟩ := hm id card hl
              refine ⟨cc, hcc, ?_⟩
              rw [← Option.some.inj hx]
              rw [(processCard_skeleton reg m card).2.2.2]
              exact hinp
            · rw [if_neg hxi] at hx
              exact hm x c0 hx
  have hseed : ∀ x c0,
      lookupKV (cards.foldl (fun m c => setKV m c.id c) []) x = some c0 →
      ∃ cc ∈ cards, c0.inputs = cc.inputs := by
    intro x c0 hx
    rcases snapSeed_entries cards [] x c0 hx with h | h
    · exact ⟨c0, h, rfl⟩
    · rw [lookupKV_nil] at h
      simp at h
  cases hl : lookupKV ((topologicalSort cards).foldl (passStep reg)
      (cards.foldl (fun m c => setKV m c.id c) [])) c.id with
  | none => simp only [hl, Option.getD_none]; exact ⟨c, hc, rfl⟩
  | some c0 =>
      simp only [hl, Option.getD_some]
      exact hP (topologicalSort cards) _ hseed c.id c0 hl

theorem updateInput_slotsOk (cs : List Card) (cid k : String) (v : JsVal)
    (h : CardsSlotsOk cs) : CardsSlotsOk (updateInput cs cid k v) := by
  intro c' hc' p hp
  unfold updateInput at hc'
  rcases List.mem_map.mp hc' with ⟨c, hc, rfl⟩
  by_cases hcid : c.id = cid
  · rw [if_pos hcid] at hp
    simp only at hp
    rcases mem_setKV _ _ _ p hp with rfl | hp
    · intro habs
      simp at habs
    · exact h c hc p hp
  · rw [if_neg hcid] at hp
    exact h c hc p hp

theorem setInputRef_slotsOk (cs : List Card) (cid k tid tk : String)
    (h : CardsSlotsOk cs) : CardsSlotsOk (setInputRef cs cid k tid tk) := by
  intro c' hc' p hp
  unfold setInputRef at hc'
  rcases List.mem_map.mp hc' with ⟨c, hc, rfl⟩
  by_cases hcid : c.id = cid
  · rw [if_pos hcid] at hp
    simp only at hp
    rcases mem_setKV _ _ _ p hp with rfl | hp
    · intro _
      rfl
    · exact h c hc p hp
  · rw [if_neg hcid] at hp
    exact h c hc p hp

theorem removeReference_slotsOk (cs : List Card) (cid k : String)
    (h : CardsSlotsOk cs) : CardsSlotsOk (removeReference cs cid k) := by
  intro c' hc' p hp
  unfold removeReference at hc'
  rcases List.mem_map.mp hc' with ⟨c, hc, rfl⟩
  by_cases hcid : c.id = cid
  · rw [if_pos hcid] at hp
    cases hl : lookupKV c.inputs k with
    | none => rw [hl] at hp; exact h c hc p hp
    | some cur =>
        rw [hl] at hp
        simp only at hp
        rcases mem_setKV _ _ _ p hp with rfl | hp
        · intro habs
          simp at habs
        · exact h c hc p hp
  · rw [if_neg hcid] at hp
    exact h c hc p hp

theorem removeInput_slotsOk (cs : List Card) (cid k : String)
    (h : CardsSlotsOk cs) : CardsSlotsOk (removeInput cs cid k) := by
  intro c' hc' p hp
  unfold removeInput at hc'
  rcases List.mem_map.mp hc' with ⟨c, hc, rfl⟩
  by_cases hcid : c.id = cid
  · rw [if_pos hcid] at hp
    simp only at hp
    exact h c hc p (List.mem_of_mem_filter hp)
  · rw [if_neg hcid] at hp
    exact h c hc p hp

theorem recalculateAll_slotsOk (reg : Registry) (cs : List Card)
    (h : CardsSlotsOk cs) : CardsSlotsOk (recalculateAll reg cs) := by
  intro c' hc' p hp
  obtain ⟨c, hc, hinp⟩ := recalculateAll_inputs reg cs c' hc'
  rw [hinp] at hp
  exact h c hc p hp

theorem applyOp_slotsOk (reg : Registry) (cs : List Card) (op : StoreOp)
    (h : CardsSlotsOk cs) : CardsSlotsOk (applyOp reg cs op) := by
  cases op with
  | update cid k v =>
      exact recalculateAll_slotsOk reg _ (updateInput_slotsOk cs cid k v h)
  | setRef cid k tid tk =>
      exact recalculateAll_slotsOk reg _ (setInputRef_slotsOk cs cid k tid tk h)
  | clearRef cid k =>
      exact recalculateAll_slotsOk reg _ (removeReference_slotsOk cs cid k h)
  | dropInput cid k =>
      exact recalculateAll_slotsOk reg _ (removeInput_slotsOk cs cid k h)

/-! ### Helper facts about the witness cards -/

theorem wabCards_edge (u v : String) (h : CardEdge wabCards u v) :
    u = "a" ∧ v = "b" := by
  obtain ⟨hu, c, hc, rfl, inp, hinp, r, hr, hru⟩ := h
  rcases List.mem_cons.mp hc with rfl | hc
  · simp [waCard] at hinp
  · rcases List.mem_cons.mp hc with rfl | hc
    · simp only [wbCard, List.map_cons, List.map_nil] at hinp
      rcases List.mem_cons.mp hinp with rfl | hinp
      · simp only at hr
        cases hr
        exact ⟨hru.symm, rfl⟩
      · simp at hinp
    · simp at hc

theorem wabCards_acyclic : AcyclicCards wabCards := by
  intro u v he hr
  obtain ⟨hu, hv⟩ := wabCards_edge u v he
  subst hu
  subst hv
  rcases Relation.ReflTransGen.cases_head hr with heq | ⟨c, hbc, _⟩
  · exact absurd heq (by decide)
  · exact absurd (wabCards_edge _ _ hbc).1 (by decide)

/-! ### Lemmas for idempotence (C3): snapshot congruence -/

theorem resolveRef_congr (m1 m2 : List (String × Card)) (r : Ref)
    (h : lookupKV m1 r.cardId = lookupKV m2 r.cardId) :
    resolveRef m1 r = resolveRef m2 r := by
  unfold resolveRef
  rw [h]

theorem phase1Val_congr (m1 m2 : List (String × Card)) (card : Card)
    (k : String) (e : ConfigEntry)
    (hag : ∀ r, RefOf card r → lookupKV m1 r.cardId = lookupKV m2 r.cardId) :
    phase1Val m1 card k e = phase1Val m2 card k e := by
  cases hl : lookupKV card.inputs k with
  | none => simp [phase1Val, hl]
  | some inp =>
      obtain ⟨ival, iref⟩ := inp
      cases iref with
      | none => simp [phase1Val, hl]
      | some r =>
          have hrr : RefOf card r := ⟨(k, ⟨ival, some r⟩), lookupKV_mem _ _ _ hl, rfl⟩
          simp only [phase1Val, hl]
          rw [resolveRef_congr m1 m2 r (hag r hrr)]

theorem phase1Step_congr (m1 m2 : List (String × Card)) (card : Card)
    (hag : ∀ r, RefOf card r → lookupKV m1 r.cardId = lookupKV m2 r.cardId)
    (acc : List (String × JsVal)) (kv : String × ConfigEntry) :
    phase1Step m1 card acc kv = phase1Step m2 card acc kv := by
  rw [phase1Step_eq, phase1Step_eq, phase1Val_congr m1 m2 card kv.1 kv.2 hag]

theorem phase1Fold_congr (m1 m2 : List (String × Card)) (card : Card)
    (hag : ∀ r, RefOf card r → lookupKV m1 r.cardId = lookupKV m2 r.cardId) :
    ∀ (cfg : List (String × ConfigEntry)) (acc : List (String × JsVal)),
      cfg.foldl (phase1Step m1 card) acc = cfg.foldl (phase1Step m2 card) acc := by
  intro cfg
  induction cfg with
  | nil => intro acc; rfl
  | cons kv t ih =>
      intro acc
      rw [List.foldl_cons, List.foldl_cons,
        phase1Step_congr m1 m2 card hag acc kv, ih]

theorem phase2Step_congr (m1 m2 : List (String × Card))
    (kv : String × InputSlot)
    (hyp : ∀ r, kv.2.ref = some r → lookupKV m1 r.cardId = lookupKV m2 r.cardId)
    (acc : List (String × JsVal)) :
    phase2Step m1 acc kv = phase2Step m2 acc kv := by
  have hv : phase2Val m1 kv.2 = phase2Val m2 kv.2 := by
    cases hr : kv.2.ref with
    | none => simp [phase2Val, hr]
    | some r =>
        simp only [phase2Val, hr]
        exact resolveRef_congr m1 m2 r (hyp r hr)
  rw [phase2Step_eq, phase2Step_eq, hv]

theorem phase2Fold_congr (m1 m2 : List (String × Card)) :
    ∀ (l : List (String × InputSlot)),
      (∀ kv ∈ l, ∀ r, kv.2.ref = some r →
        lookupKV m1 r.cardId = lookupKV m2 r.cardId) →
      ∀ (acc : List (String × JsVal)),
        l.foldl (phase2Step m1) acc = l.foldl (phase2Step m2) acc := by
  intro l
  induction l with
  | nil => intro _ acc; rfl
  | cons kv t ih =>
      intro h acc
      rw [List.foldl_cons, List.foldl_cons,
        phase2Step_congr m1 m2 kv (h kv (List.mem_cons_self _ _)) acc,
        ih (fun kv' h' r hr => h kv' (List.mem_cons_of_mem _ h') r hr)]

/-- Two snapshots agreeing at every producer a card references resolve the
card's inputs identically. -/
theorem resolveInputs_congr (m1 m2 : List (String × Card)) (c : Card)
    (d : CardDef)
    (hag : ∀ r, RefOf c r → lookupKV m1 r.cardId = lookupKV m2 r.cardId) :
    resolveInputs m1 c d = resolveInputs m2 c d := by
  unfold resolveInputs phase2 phase1
  rw [phase1Fold_congr m1 m2 c hag]
  exact phase2Fold_congr m1 m2 c.inputs
    (fun kv hkv r hr => hag r ⟨kv, hkv, hr⟩) _

/-- Two snapshots agreeing at every producer a card references process the
card identically. -/
theorem processCard_congr (reg : Registry) (m1 m2 : List (String × Card))
    (c : Card)
    (hag : ∀ r, RefOf c r → lookupKV m1 r.cardId = lookupKV m2 r.cardId) :
    processCard reg m1 c = processCard reg m2 c := by
  cases hd : reg c.type with
  | none => simp only [processCard, hd]
  | some d =>
      cases hc : d.calculate with
      | none => simp only [processCard, hd, hc]
      | some f =>
          simp only [processCard, hd, hc]
          rw [resolveInputs_congr m1 m2 c d hag]

/-- Under a registry whose dynamic configs read only stored inputs, two
cards differing only in `outputs`/`error` resolve identically. -/
theorem resolveInputs_blind (reg : Registry) (m : List (String × Card))
    (hreg : RegInputsOnly reg) (t : String) (d : CardDef)
    (hd : reg t = some d) (c1 c2 : Card) (hin : c1.inputs = c2.inputs) :
    resolveInputs m c1 d = resolveInputs m c2 d := by
  have hdyn : dynConfig d c1 = dynConfig d c2 := by
    unfold dynConfig
    cases hg : d.getInputConfig with
    | none => rfl
    | some g => exact hreg t d g hd hg c1 c2 hin
  have hstep : phase1Step m c1 = phase1Step m c2 := by
    funext acc kv
    unfold phase1Step
    rw [hin]
  unfold resolveInputs phase2 phase1 resolvedConfigOf
  rw [hdyn, hstep, hin]

/-- Under a registry whose dynamic configs read only stored inputs,
processing ignores a card's previous `outputs`/`error`. -/
theorem processCard_blind (reg : Registry) (m : List (String × Card))
    (hreg : RegInputsOnly reg) (c1 c2 : Card)
    (hty : c1.type = c2.type) (hid : c1.id = c2.id)
    (hal : c1.aliasName = c2.aliasName) (hin : c1.inputs = c2.inputs) :
    processCard reg m c1 = processCard reg m c2 := by
  cases hd : reg c2.type with
  | none =>
      have hd1 : reg c1.type = none := by rw [hty]; exact hd
      simp only [processCard, hd1, hd]
      rw [hty, hid, hal, hin]
  | some d =>
      have hd1 : reg c1.type = some d := by rw [hty]; exact hd
      cases hc : d.calculate with
      | none =>
          simp only [processCard, hd1, hd, hc]
          rw [hty, hid, hal, hin]
      | some f =>
          simp only [processCard, hd1, hd, hc]
          rw [resolveInputs_blind reg m hreg c2.type d hd c1 c2 hin,
            hty, hid, hal, hin]

/-! ### Lemmas for idempotence (C3): the sorter sees only skeletons -/

theorem foldl_map_eq {α γ : Type} (l : List α) (F : α → α) (step : γ → α → γ)
    (h : ∀ a ∈ l, ∀ acc, step acc (F a) = step acc a) :
    ∀ acc : γ, (l.map F).foldl step acc = l.foldl step acc := by
  induction l with
  | nil => intro acc; rfl
  | cons a t ih =>
      intro acc
      rw [List.map_cons, List.foldl_cons, List.foldl_cons,
        h a (List.mem_cons_self _ _) acc]
      exact ih (fun b hb acc' => h b (List.mem_cons_of_mem _ hb) acc') _

theorem buildDependencyGraph_map (cards : List Card) (F : Card → Card)
    (h : ∀ c ∈ cards, (F c).id = c.id ∧ (F c).inputs = c.inputs) :
    buildDependencyGraph (cards.map F) = buildDependencyGraph cards := by
  unfold buildDependencyGraph
  rw [foldl_map_eq cards F initCardKey (fun a ha acc => by
        unfold initCardKey; rw [(h a ha).1]),
      foldl_map_eq cards F addCardEdges (fun a ha acc => by
        unfold addCardEdges; rw [(h a ha).1, (h a ha).2])]

/-- The topological sort depends only on each card's id and inputs: a map
that preserves both leaves the order unchanged. -/
theorem topologicalSort_map (cards : List Card) (F : Card → Card)
    (h : ∀ c ∈ cards, (F c).id = c.id ∧ (F c).inputs = c.inputs) :
    topologicalSort (cards.map F) = topologicalSort cards := by
  rw [topologicalSort_eq_final, topologicalSort_eq_final]
  unfold sortFinal
  rw [buildDependencyGraph_map cards F h, List.length_map,
    foldl_map_eq cards F
      (visitRoot (buildDependencyGraph cards) (cards.length + 1))
      (fun a ha s => by unfold visitRoot; rw [(h a ha).1])]

theorem cardIds_map (cards : List Card) (F : Card → Card)
    (h : ∀ c ∈ cards, (F c).id = c.id ∧ (F c).inputs = c.inputs) :
    cardIds (cards.map F) = cardIds cards := by
  unfold cardIds
  rw [List.map_map]
  exact List.map_congr_left (fun a ha => (h a ha).1)

/-! ### Lemmas for idempotence (C3): the seed snapshot -/

theorem snapSeedAux_untouched :
    ∀ (cs : List Card) (m : List (String × Card)) (x : String),
      x ∉ cardIds cs →
      lookupKV (cs.foldl (fun m c => setKV m c.id c) m) x = lookupKV m x := by
  intro cs
  induction cs with
  | nil => intro m x _; rfl
  | cons c t ih =>
      intro m x hx
      have hhead : c.id ∈ cardIds (c :: t) := by
        unfold cardIds
        rw [List.map_cons]
        exact List.mem_cons_self _ _
      have hxc : x ≠ c.id := fun h => hx (h ▸ hhead)
      have hxt : x ∉ cardIds t := fun h => hx (by
        unfold cardIds at h ⊢
        rw [List.map_cons]
        exact List.mem_cons_of_mem _ h)
      rw [List.foldl_cons, ih _ x hxt, lookupKV_setKV, if_neg hxc]

theorem snapSeedAux_mem :
    ∀ (cs : List Card), (cardIds cs).Nodup →
      ∀ c ∈ cs, ∀ (m : List (String × Card)),
        lookupKV (cs.foldl (fun m c => setKV m c.id c) m) c.id = some c := by
  intro cs
  induction cs with
  | nil => intro _ c hc; exact absurd hc (List.not_mem_nil c)
  | cons a t ih =>
      intro hnd c hc m
      unfold cardIds at hnd
      rw [List.map_cons] at hnd
      have hnd' : (cardIds t).Nodup := (List.nodup_cons.mp hnd).2
      have hhead : a.id ∉ cardIds t := (List.nodup_cons.mp hnd).1
      rw [List.foldl_cons]
      rcases List.mem_cons.mp hc with rfl | hct
      · rw [snapSeedAux_untouched t _ c.id hhead, lookupKV_setKV, if_pos rfl]
      · exact ih hnd' c hct _

theorem snapSeed_none (cs : List Card) (x : String)
    (hx : x ∉ cardIds cs) : lookupKV (snapSeed cs) x = none := by
  unfold snapSeed
  rw [snapSeedAux_untouched cs [] x hx]
  rfl

theorem snapSeed_mem (cs : List Card) (hnd : (cardIds cs).Nodup) (c : Card)
    (hc : c ∈ cs) : lookupKV (snapSeed cs) c.id = some c :=
  snapSeedAux_mem cs hnd c hc []

/-- Distinct ids make the id an injective key on the list's members. -/
theorem card_id_inj (cards : List Card) (hnd : (cardIds cards).Nodup)
    (c c' : Card) (hc : c ∈ cards) (hc' : c' ∈ cards) (h : c.id = c'.id) :
    c = c' :=
  List.inj_on_of_nodup_map (by simpa [cardIds] using hnd) hc hc' h

theorem indexOf_concat_self :
    ∀ (pre : List String) (x : String) (suf : List String), x ∉ pre →
      (pre ++ x :: suf).indexOf x = pre.length := by
  intro pre
  induction pre with
  | nil =>
      intro x suf _
      simp [List.indexOf_cons_self]
  | cons a t ih =>
      intro x suf hx
      have hax : a ≠ x := fun h => hx (h ▸ List.mem_cons_self a t)
      show ((a :: t) ++ x :: suf).indexOf x = (a :: t).length
      rw [List.cons_append, List.indexOf_cons_ne _ hax,
        ih x suf (fun h => hx (List.mem_cons_of_mem a h)), List.length_cons]

theorem indexOf_append_lt :
    ∀ (pre : List String) (x : String) (suf : List String), x ∈ pre →
      (pre ++ suf).indexOf x < pre.length := by
  intro pre
  induction pre with
  | nil => intro x suf hx; exact absurd hx (List.not_mem_nil x)
  | cons a t ih =>
      intro x suf hx
      by_cases hax : a = x
      · subst hax
        rw [List.cons_append, List.indexOf_cons_self]
        exact Nat.succ_pos _
      · have hxt : x ∈ t := by
          rcases List.mem_cons.mp hx with h | h
          · exact absurd h.symm hax
          · exact h
        rw [List.cons_append, List.indexOf_cons_ne _ hax, List.length_cons]
        exact Nat.succ_lt_succ (ih x suf hxt)

/-! ### Lemmas for idempotence (C3): the pass reaches a fixed point -/

/-- The central invariant of the sorted pass over an acyclic list with
distinct ids: ids outside the list are never bound, unprocessed ids still
hold their seeded cards, and every processed id already holds the card
processed against the *final* snapshot — the ordering guarantees its
referenced producers are never overwritten afterwards. -/
theorem passFold_fix (reg : Registry) (cards : List Card)
    (sorted : List String)
    (hnd : (cardIds cards).Nodup) (hsnd : sorted.Nodup)
    (hsub : ∀ x ∈ sorted, x ∈ cardIds cards)
    (hord : ∀ c ∈ cards, ∀ r : Ref, RefOf c r → r.cardId ∈ cardIds cards →
      sorted.indexOf r.cardId < sorted.indexOf c.id) :
    ∀ (suf pre : List String) (m : List (String × Card)),
      sorted = pre ++ suf →
      (∀ x, x ∉ cardIds cards → lookupKV m x = none) →
      (∀ c ∈ cards, c.id ∉ pre → lookupKV m c.id = some c) →
      (∀ c ∈ cards, c.id ∈ pre → lookupKV m c.id = some (processCard reg m c)) →
      (∀ x, x ∉ cardIds cards →
        lookupKV (suf.foldl (passStep reg) m) x = none) ∧
      (∀ c ∈ cards, c.id ∉ pre ++ suf →
        lookupKV (suf.foldl (passStep reg) m) c.id = some c) ∧
      (∀ c ∈ cards, c.id ∈ pre ++ suf →
        lookupKV (suf.foldl (passStep reg) m) c.id =
          some (processCard reg (suf.foldl (passStep reg) m) c)) := by
  intro suf
  induction suf with
  | nil =>
      intro pre m _ h1 h2 h3
      rw [List.append_nil]
      exact ⟨h1, h2, h3⟩
  | cons a suf' ih =>
      intro pre m hsplit h1 h2 h3
      have hamem : a ∈ sorted := by
        rw [hsplit]
        exact List.mem_append_right _ (List.mem_cons_self _ _)
      have haids : a ∈ cardIds cards := hsub a hamem
      obtain ⟨ca, hca, hcaid⟩ : ∃ c, c ∈ cards ∧ c.id = a := by
        rcases List.mem_map.mp haids with ⟨c, hc, hcid⟩
        exact ⟨c, hc, hcid⟩
      have hndsplit : (pre ++ a :: suf').Nodup := hsplit ▸ hsnd
      have hapre : a ∉ pre := by
        intro hmem
        exact (List.nodup_append.mp hndsplit).2.2 hmem (List.mem_cons_self _ _)
      have hma : lookupKV m a = some ca := by
        rw [← hcaid]
        exact h2 ca hca (by rw [hcaid]; exact hapre)
      have hstepa : passStep reg m a = setKV m a (processCard reg m ca) := by
        unfold passStep
        rw [hma]
      have hidxa : sorted.indexOf a = pre.length := by
        rw [hsplit]
        exact indexOf_concat_self pre a suf' hapre
      -- a processed (or just-processed) card never references `a`
      have hra : ∀ c ∈ cards, c.id ∈ pre ++ [a] → ∀ r : Ref, RefOf c r →
          r.cardId ≠ a := by
        intro c hc hcpre r hr he
        have hrids : r.cardId ∈ cardIds cards := he ▸ haids
        have hlt := hord c hc r hr hrids
        rw [he, hidxa] at hlt
        rcases List.mem_append.mp hcpre with hcp | hcp
        · have hlt2 : sorted.indexOf c.id < pre.length := by
            rw [hsplit]
            exact indexOf_append_lt pre c.id (a :: suf') hcp
          omega
        · have hcida : c.id = a := by simpa using hcp
          rw [hcida, hidxa] at hlt
          omega
      have hagree : ∀ c ∈ cards, c.id ∈ pre ++ [a] → ∀ r : Ref, RefOf c r →
          lookupKV m r.cardId =
            lookupKV (setKV m a (processCard reg m ca)) r.cardId := by
        intro c hc hcpre r hr
        rw [lookupKV_setKV, if_neg (hra c hc hcpre r hr)]
      have h1' : ∀ x, x ∉ cardIds cards →
          lookupKV (setKV m a (processCard reg m ca)) x = none := by
        intro x hx
        have hxa : x ≠ a := fun he => hx (he ▸ haids)
        rw [lookupKV_setKV, if_neg hxa]
        exact h1 x hx
      have h2' : ∀ c ∈ cards, c.id ∉ pre ++ [a] →
          lookupKV (setKV m a (processCard reg m ca)) c.id = some c := by
        intro c hc hcp
        have hcpre : c.id ∉ pre := fun h => hcp (List.mem_append_left _ h)
        have hcna : c.id ≠ a := fun h =>
          hcp (List.mem_append_right _ (by simp [h]))
        rw [lookupKV_setKV, if_neg hcna]
        exact h2 c hc hcpre
      have h3' : ∀ c ∈ cards, c.id ∈ pre ++ [a] →
          lookupKV (setKV m a (processCard reg m ca)) c.id =
            some (processCard reg (setKV m a (processCard reg m ca)) c) := by
        intro c hc hcp
        have hpc : processCard reg m c =
            processCard reg (setKV m a (processCard reg m ca)) c :=
          processCard_congr reg m _ c (hagree c hc hcp)
        rcases List.mem_append.mp hcp with hcpre | hcpa
        · have hcna : c.id ≠ a := fun h => hapre (h ▸ hcpre)
          rw [lookupKV_setKV, if_neg hcna, h3 c hc hcpre, hpc]
        · have hcida : c.id = a := by simpa using hcpa
          have hceq : c = ca :=
            card_id_inj cards hnd c ca hc hca (by rw [hcida, hcaid])
          subst hceq
          rw [lookupKV_setKV, if_pos hcida]
          exact congrArg some hpc
      have hsplit' : sorted = (pre ++ [a]) ++ suf' := by
        rw [hsplit]
        simp
      have key := ih (pre ++ [a]) (setKV m a (processCard reg m ca))
        hsplit' h1' h2' h3'
      have hPP : (pre ++ [a]) ++ suf' = pre ++ a :: suf' := by simp
      rw [hPP] at key
      rw [List.foldl_cons, hstepa]
      exact key

/-- On a duplicate-free acyclic list, the final snapshot binds exactly the
card ids, and every entry is its own processing result against the final
snapshot itself. -/
theorem snapFinal_fix (reg : Registry) (cards : List Card)
    (hnd : (cardIds cards).Nodup) (hacy : AcyclicCards cards) :
    (∀ x, x ∉ cardIds cards → lookupKV (snapFinal reg cards) x = none) ∧
    (∀ c ∈ cards, lookupKV (snapFinal reg cards) c.id =
      some (processCard reg (snapFinal reg cards) c)) := by
  have hord : ∀ c ∈ cards, ∀ r : Ref, RefOf c r → r.cardId ∈ cardIds cards →
      (topologicalSort cards).indexOf r.cardId <
        (topologicalSort cards).indexOf c.id := by
    intro c hc r hr hrids
    refine sortFinal_sorted cards hacy r.cardId c.id ⟨hrids, c, hc, rfl, ?_⟩
    obtain ⟨p, hp, hpref⟩ := hr
    exact ⟨p.2, List.mem_map.mpr ⟨p, hp, rfl⟩, r, hpref, rfl⟩
  have key := passFold_fix reg cards (topologicalSort cards) hnd
    (topologicalSort_nodup cards) (topologicalSort_sub cards) hord
    (topologicalSort cards) [] (snapSeed cards) (by simp)
    (fun x hx => snapSeed_none cards x hx)
    (fun c hc _ => snapSeed_mem cards hnd c hc)
    (fun c _ hfalse => absurd hfalse (List.not_mem_nil _))
  obtain ⟨k1, k2, k3⟩ := key
  refine ⟨k1, fun c hc => ?_⟩
  have hmem : c.id ∈ ([] : List String) ++ topologicalSort cards := by
    rw [List.nil_append]
    exact topologicalSort_complete cards c hc
  exact k3 c hc hmem

theorem recalculateAll_eq_map (reg : Registry) (cards : List Card) :
    recalculateAll reg cards =
      cards.map (fun c => (lookupKV (snapFinal reg cards) c.id).getD c) := rfl

/-- On a duplicate-free acyclic list, the pass returns exactly each card
processed against the final snapshot, in list order. -/
theorem recalculateAll_fix_map (reg : Registry) (cards : List Card)
    (hnd : (cardIds cards).Nodup) (hacy : AcyclicCards cards) :
    recalculateAll reg cards =
      cards.map (fun c => processCard reg (snapFinal reg cards) c) := by
  rw [recalculateAll_eq_map]
  refine List.map_congr_left (fun c hc => ?_)
  rw [(snapFinal_fix reg cards hnd hacy).2 c hc]
  rfl

/-- Every entry of the final snapshot of a duplicate-free acyclic list is
a fixed point of processing (relative to that snapshot), when the registry
reads only stored inputs. -/
theorem snapFinal_entries_fixed (reg : Registry) (cards : List Card)
    (hreg : RegInputsOnly reg)
    (hnd : (cardIds cards).Nodup) (hacy : AcyclicCards cards) :
    ∀ (id : String) (c' : Card), lookupKV (snapFinal reg cards) id = some c' →
      processCard reg (snapFinal reg cards) c' = c' := by
  intro id c' h
  obtain ⟨k1, k2⟩ := snapFinal_fix reg cards hnd hacy
  by_cases hid : id ∈ cardIds cards
  · obtain ⟨c, hc, hcid⟩ := List.mem_map.mp hid
    have h2 := k2 c hc
    rw [hcid] at h2
    rw [h2] at h
    have hc' : c' = processCard reg (snapFinal reg cards) c :=
      (Option.some.inj h).symm
    subst hc'
    have hskel := processCard_skeleton reg (snapFinal reg cards) c
    rw [processCard_blind reg (snapFinal reg cards) hreg
      (processCard reg (snapFinal reg cards) c) c
      hskel.2.1 hskel.1 hskel.2.2.1 hskel.2.2.2]
  · rw [k1 id hid] at h
    exact absurd h (by simp)

/-- A pass folded over a snapshot that pointwise equals a fixed-point
snapshot is a pointwise no-op. -/
theorem passFold_id (reg : Registry) (S : List (String × Card))
    (hfix : ∀ (id : String) (c' : Card), lookupKV S id = some c' →
      processCard reg S c' = c') :
    ∀ (ids : List String) (m : List (String × Card)),
      (∀ x, lookupKV m x = lookupKV S x) →
      ∀ x, lookupKV (ids.foldl (passStep reg) m) x = lookupKV S x := by
  intro ids
  induction ids with
  | nil => intro m h x; exact h x
  | cons a t ih =>
      intro m h x
      rw [List.foldl_cons]
      refine ih (passStep reg m a) ?_ x
      intro y
      unfold passStep
      cases hma : lookupKV m a with
      | none => exact h y
      | some c' =>
          have hSa : lookupKV S a = some c' := by rw [← h a, hma]
          have hcongr : processCard reg m c' = processCard reg S c' :=
            processCard_congr reg m S c' (fun r _ => h r.cardId)
          rw [lookupKV_setKV]
          by_cases hy : y = a
          · rw [if_pos hy, hcongr, hfix a c' hSa, hy, hSa]
          · rw [if_neg hy]
            exact h y

/-! ### Claim theorems -/

/-- C1: for every card list whose reference edges form no cycle,
`topologicalSort` returns a sequence containing every card id of the
input exactly once (each id has count 1 and nothing else occurs), and for
every dependency edge producer → consumer, the producer's position
strictly precedes the consumer's position. -/
theorem C1_topologicalSort_acyclic (cards : List Card)
    (hacy : AcyclicCards cards) :
    (∀ i ∈ cardIds cards, (topologicalSort cards).count i = 1) ∧
    (∀ x ∈ topologicalSort cards, x ∈ cardIds cards) ∧
    (∀ u v, CardEdge cards u v →
      (topologicalSort cards).indexOf u < (topologicalSort cards).indexOf v) := by
  refine ⟨?_, topologicalSort_sub cards, sortFinal_sorted cards hacy⟩
  intro i hi
  rcases List.mem_map.mp hi with ⟨c, hc, rfl⟩
  exact List.count_eq_one_of_mem (topologicalSort_nodup cards)
    (topologicalSort_complete cards c hc)

/-- C1 witness: the acyclic two-card list `wabCards` satisfies the
hypothesis and the conclusion instantiates at the edge `"a" → "b"`. -/
theorem C1_topologicalSort_acyclic_witness :
    AcyclicCards wabCards ∧
    (topologicalSort wabCards).count "a" = 1 ∧
    (topologicalSort wabCards).indexOf "a" < (topologicalSort wabCards).indexOf "b" := by
  have h := C1_topologicalSort_acyclic wabCards wabCards_acyclic
  refine ⟨wabCards_acyclic, ?_, ?_⟩
  · exact h.1 "a" (by simp [cardIds, wabCards, waCard])
  · refine h.2.2 "a" "b" ?_
    refine ⟨by simp [cardIds, wabCards, waCard], wbCard, by simp [wabCards], rfl, ?_⟩
    exact ⟨⟨some (JsVal.str ""), some ⟨"a", "out"⟩⟩, by simp [wbCard],
      ⟨"a", "out"⟩, rfl, rfl⟩

/-- C10: for every card list, cyclic or not, `topologicalSort` returns a
sequence containing every card id of the input exactly once: no id is
skipped and nothing but card ids appears. -/
theorem C10_topologicalSort_total (cards : List Card) :
    (∀ i ∈ cardIds cards, (topologicalSort cards).count i = 1) ∧
    (∀ x ∈ topologicalSort cards, x ∈ cardIds cards) := by
  refine ⟨?_, topologicalSort_sub cards⟩
  intro i hi
  rcases List.mem_map.mp hi with ⟨c, hc, rfl⟩
  exact List.count_eq_one_of_mem (topologicalSort_nodup cards)
    (topologicalSort_complete cards c hc)

/-- C2: in the failure-isolation scenario (A throws, B independent with an
arbitrary calculate, C references A's output), the pass is not aborted:
A ends with empty outputs and the thrown message as its error, B's result
card is identical to the one of the run where A's calculate is an
arbitrary succeeding (or even failing) function, and C computes
successfully with the dangling input resolved to 0. -/
theorem C2_failure_isolation (msg : String)
    (fB fASucc : List (String × JsVal) → List (String × InputSlot) →
      Except String (List (String × JsVal))) :
    (∃ cA, (recalculateAll (scenarioReg (fun _ _ => Except.error msg) fB) sCards).get? 0 =
        some cA ∧ cA.outputs = [] ∧ cA.error = some msg) ∧
    (recalculateAll (scenarioReg (fun _ _ => Except.error msg) fB) sCards).get? 1 =
      (recalculateAll (scenarioReg fASucc fB) sCards).get? 1 ∧
    (∃ cC, (recalculateAll (scenarioReg (fun _ _ => Except.error msg) fB) sCards).get? 2 =
        some cC ∧ cC.error = none ∧ cC.outputs = [("y", JsVal.num 0)]) := by
  refine ⟨⟨_, rfl, rfl, rfl⟩, rfl, ⟨_, rfl, rfl, rfl⟩⟩

/-- C4 counterexample: a reference to an existing producer whose stored
output value is the non-numeric string `"oops"` resolves to that string,
not to 0 as the claim states. -/
theorem C4_counterexample :
    resolveRef [("p", pCard)] ⟨"p", "k"⟩ = JsVal.str "oops" ∧
    JsVal.str "oops" ≠ JsVal.num 0 ∧ isNum (JsVal.str "oops") = false := by
  decide

/-- C4 amended: reference resolution yields 0 when the producer is absent
from the snapshot or lacks the referenced key, and otherwise yields the
producer's stored value unchanged, numeric or not; as a total function it
never throws. -/
theorem C4_resolveRef_characterization (snap : List (String × Card)) (r : Ref) :
    (lookupKV snap r.cardId = none → resolveRef snap r = JsVal.num 0) ∧
    (∀ sc, lookupKV snap r.cardId = some sc →
      lookupKV sc.outputs r.outputKey = none → resolveRef snap r = JsVal.num 0) ∧
    (∀ sc v, lookupKV snap r.cardId = some sc →
      lookupKV sc.outputs r.outputKey = some v → resolveRef snap r = v) := by
  refine ⟨?_, ?_, ?_⟩
  · intro h
    unfold resolveRef
    rw [h]
    rfl
  · intro sc h1 h2
    unfold resolveRef
    rw [h1]
    simp [h2]
  · intro sc v h1 h2
    unfold resolveRef
    rw [h1]
    simp [h2]

/-- C4 witness: the three cases instantiated on a concrete snapshot. -/
theorem C4_resolveRef_witness :
    resolveRef [("p", pCard)] ⟨"q", "k"⟩ = JsVal.num 0 ∧
    resolveRef [("p", pCard)] ⟨"p", "missing"⟩ = JsVal.num 0 ∧
    resolveRef [("p", pCard)] ⟨"p", "k"⟩ = JsVal.str "oops" :=
  ⟨(C4_resolveRef_characterization [("p", pCard)] ⟨"q", "k"⟩).1 (by decide),
   (C4_resolveRef_characterization [("p", pCard)] ⟨"p", "missing"⟩).2.1 pCard
     (by decide) (by decide),
   (C4_resolveRef_characterization [("p", pCard)] ⟨"p", "k"⟩).2.2 pCard
     (JsVal.str "oops") (by decide) (by decide)⟩

/-- C6 counterexample: after a pass over a default Beam card, the stored
outputs contain the non-numeric `diagramModel` object; the engine does not
exclude non-numeric entries. -/
theorem C6_counterexample :
    ∃ c' ∈ recalculateAll beamRegistry [beamDefaultCard],
      lookupKV c'.outputs "diagramModel" =
        some (JsVal.beamModel "simple" "uniform" 4000 (some 10) none none) ∧
      isNum (JsVal.beamModel "simple" "uniform" 4000 (some 10) none none) = false := by
  decide

/-- C6 amended: the pass stores the map returned by `calculate` exactly as
returned — no entry, numeric or not, is filtered out. -/
theorem C6_outputs_stored_unfiltered (reg : Registry)
    (snap : List (String × Card)) (c : Card) (d : CardDef)
    (f : List (String × JsVal) → List (String × InputSlot) →
      Except String (List (String × JsVal)))
    (m : List (String × JsVal))
    (hd : reg c.type = some d) (hf : d.calculate = some f)
    (hm : f (resolveInputs snap c d) c.inputs = Except.ok m) :
    (processCard reg snap c).outputs = m := by
  simp only [processCard, hd, hf, hm]

/-- C6 witness: a calculate returning a mixed numeric/non-numeric map has
that exact map stored as the card's outputs. -/
theorem C6_outputs_stored_unfiltered_witness :
    (processCard mixReg [] mCard).outputs =
      [("n", JsVal.num 1), ("s", JsVal.str "obj")] :=
  C6_outputs_stored_unfiltered mixReg [] mCard _ _ _ rfl rfl rfl

/-- C7 counterexample: a card of an unregistered type ends the pass with
empty outputs and no error, contradicting the claimed two-state
dichotomy. -/
theorem C7_counterexample :
    ¬ (∀ c' ∈ recalculateAll (fun _ => none) [zCard],
        (c'.outputs ≠ [] ∧ c'.error = none) ∨
        (c'.outputs = [] ∧ c'.error ≠ none)) := by
  decide

/-- C7 amended: after every pass, a card carrying an error has empty
outputs; a card without an error holds the (possibly empty) map of a
successful computation, or empty outputs when its type is unregistered or
lacks a calculate. -/
theorem C7_error_implies_empty_outputs (reg : Registry) (cards : List Card) :
    ∀ c' ∈ recalculateAll reg cards, c'.error.isSome = true → c'.outputs = [] := by
  intro c' hc' herr
  obtain ⟨snap, c0, rfl⟩ := recalculateAll_entries reg cards c' hc'
  rcases processCard_cases reg snap c0 with
    ⟨d, f, m, _, _, _, heq⟩ | ⟨d, f, msg, _, _, _, heq⟩ | ⟨_, heq⟩
  · rw [heq] at herr
    simp at herr
  · rw [heq]
  · rw [heq] at herr
    simp at herr

/-- C7 witness: in the failure scenario, A's result card is in the pass
output, carries an error, and the theorem yields its empty outputs. -/
theorem C7_error_implies_empty_outputs_witness :
    (⟨"a", "TA", "a", [], [], some "boom"⟩ : Card) ∈
      recalculateAll
        (scenarioReg (fun _ _ => Except.error "boom")
          (fun _ _ => Except.ok [("b", JsVal.num 7)])) sCards ∧
    (⟨"a", "TA", "a", [], [], some "boom"⟩ : Card).outputs = [] :=
  ⟨by decide,
   C7_error_implies_empty_outputs
     (scenarioReg (fun _ _ => Except.error "boom")
       (fun _ _ => Except.ok [("b", JsVal.num 7)])) sCards
     ⟨"a", "TA", "a", [], [], some "boom"⟩ (by decide) (by decide)⟩

/-- C5 counterexample: with `x` declared with default 5 but stored as the
non-numeric literal `"abc"`, resolution yields 0, not the declared
default; and the declared key `y` without default and without a stored
slot is absent from the resolved map, not present with 0. -/
theorem C5_counterexample :
    lookupKV (phase2 [] c5Card (phase1 [] c5Card c5Cfg)) "x" = some (JsVal.num 0) ∧
    some (JsVal.num 0) ≠ some (JsVal.num 5) ∧
    lookupKV (phase2 [] c5Card (phase1 [] c5Card c5Cfg)) "y" = none := by
  decide

/-- C5 amended: for a key declared in the resolved schema (with the
object-key uniqueness of JS records), a stored non-empty literal resolves
to its numeric parse, or to 0 when it does not parse — the declared
default is not consulted; an absent or empty slot resolves to the declared
default; an absent slot with no default leaves the key absent from the
resolved map, while a present-but-empty slot with no default resolves
to 0. -/
theorem C5_declared_key_resolution (snap : List (String × Card))
    (card : Card) (cfg : List (String × ConfigEntry)) (k : String)
    (e : ConfigEntry)
    (hndc : (cfg.map Prod.fst).Nodup)
    (hndi : (card.inputs.map Prod.fst).Nodup)
    (he : (k, e) ∈ cfg) :
    (∀ d0, lookupKV card.inputs k = none → e.default = some d0 →
      lookupKV (phase2 snap card (phase1 snap card cfg)) k =
        some (JsVal.num ((jsParseFloat (some d0)).getD 0))) ∧
    (lookupKV card.inputs k = none → e.default = none →
      lookupKV (phase2 snap card (phase1 snap card cfg)) k = none) ∧
    (∀ inp v, lookupKV card.inputs k = some inp → inp.ref = none →
      inp.value = some v → v ≠ JsVal.str "" →
      lookupKV (phase2 snap card (phase1 snap card cfg)) k =
        some (JsVal.num ((jsParseFloat (some v)).getD 0))) ∧
    (∀ inp d0, lookupKV card.inputs k = some inp → inp.ref = none →
      (inp.value = none ∨ inp.value = some (JsVal.str "")) →
      e.default = some d0 →
      lookupKV (phase2 snap card (phase1 snap card cfg)) k =
        some (JsVal.num ((jsParseFloat (some d0)).getD 0))) ∧
    (∀ inp, lookupKV card.inputs k = some inp → inp.ref = none →
      (inp.value = none ∨ inp.value = some (JsVal.str "")) →
      e.default = none →
      lookupKV (phase2 snap card (phase1 snap card cfg)) k =
        some (JsVal.num 0)) := by
  have hval : ∀ w, phase1Val snap card k e = some w →
      lookupKV (phase2 snap card (phase1 snap card cfg)) k = some w := by
    intro w hw
    have h1 : lookupKV (phase1 snap card cfg) k = some w := by
      unfold phase1
      rw [phase1Fold_mem snap card cfg [] k e hndc he, hw]
    exact phase2Fold_preserved snap card.inputs _ k w h1
  refine ⟨?_, ?_, ?_, ?_, ?_⟩
  · intro d0 hin hd
    refine hval _ ?_
    unfold phase1Val
    rw [hin, hd]
  · intro hin hd
    have h1 : lookupKV (phase1 snap card cfg) k = none := by
      unfold phase1
      rw [phase1Fold_mem snap card cfg [] k e hndc he]
      unfold phase1Val
      rw [hin, hd]
      rfl
    unfold phase2
    rw [phase2Fold_untouched snap card.inputs _ k
      ((lookupKV_eq_none_iff card.inputs k).mp hin)]
    exact h1
  · intro inp v hin href hv hne
    refine hval _ ?_
    unfold phase1Val
    simp only [hin, href, hv]
    rw [if_pos hne]
  · intro inp d0 hin href hv hd
    refine hval _ ?_
    unfold phase1Val
    rcases hv with hv | hv
    · simp only [hin, href, hv]
      rw [hd]
    · simp only [hin, href, hv]
      rw [if_neg (by simp), hd]
  · intro inp hin href hv hd
    have h1 : lookupKV (phase1 snap card cfg) k = none := by
      unfold phase1
      rw [phase1Fold_mem snap card cfg [] k e hndc he]
      unfold phase1Val
      rcases hv with hv | hv
      · simp only [hin, href, hv]
        rw [hd]
        rfl
      · simp only [hin, href, hv]
        rw [if_neg (by simp), hd]
        rfl
    have h2 : phase2Val snap inp = JsVal.num 0 := by
      unfold phase2Val
      rw [href]
      rcases hv with hv | hv
      · rw [hv]
        rfl
      · rw [hv]
        rfl
    unfold phase2
    rw [phase2Fold_new snap card.inputs _ k inp hndi
      (lookupKV_mem card.inputs k inp hin) h1, h2]

/-- C5 witness: the non-numeric-literal and the absent-no-default cases
instantiated on the concrete card and schema. -/
theorem C5_declared_key_resolution_witness :
    lookupKV (phase2 [] c5Card (phase1 [] c5Card c5Cfg)) "x" =
      some (JsVal.num ((jsParseFloat (some (JsVal.str "abc"))).getD 0)) ∧
    lookupKV (phase2 [] c5Card (phase1 [] c5Card c5Cfg)) "y" = none :=
  ⟨(C5_declared_key_resolution [] c5Card c5Cfg "x" ⟨some (JsVal.num 5)⟩
      (by decide) (by decide) (by decide)).2.2.1
    ⟨some (JsVal.str "abc"), none⟩ (JsVal.str "abc")
    (by decide) rfl rfl (by decide),
   (C5_declared_key_resolution [] c5Card c5Cfg "y" ⟨none⟩
      (by decide) (by decide) (by decide)).2.1
    (by decide) rfl⟩

/-- C8: for a multi-axis strategy type, dispatch resolves the variant id
as the axes' stored values joined in declared order with `'_'`
(substituting the axis default for an unset axis); the variant with that
id supplies both the dynamic input schema and the calculate function, and
when no declared variant carries the composite id the whole first-declared
variant is used instead. -/
theorem C8_composite_dispatch (axes : List StrategyAxis) (s0 : CardStrategy)
    (rest : List CardStrategy) (comm : List (String × InputSlot))
    (m : List (String × InputSlot)) (card : Card)
    (hcard : card.inputs = m)
    (hax : 2 ≤ axes.length)
    (hvals : ∀ a ∈ axes, (lookupKV m a.key).bind (fun sl => sl.value) = none ∨
      ∃ sv, (lookupKV m a.key).bind (fun sl => sl.value) = some (JsVal.str sv) ∧
        sv ≠ "") :
    resolveStrategyId axes s0 (some m) =
      String.intercalate "_" (axes.map (storedOrDefault m)) ∧
    (∀ v, (s0 :: rest).find?
        (fun st => st.id = resolveStrategyId axes s0 (some m)) = some v →
      (∃ g, (createStrategyDefinition axes s0 rest comm).getInputConfig = some g ∧
        g card = v.inputConfig) ∧
      (∃ F, (createStrategyDefinition axes s0 rest comm).calculate = some F ∧
        ∀ ins, F ins m = v.calculate ins)) ∧
    ((s0 :: rest).find?
        (fun st => st.id = resolveStrategyId axes s0 (some m)) = none →
      (∃ g, (createStrategyDefinition axes s0 rest comm).getInputConfig = some g ∧
        g card = s0.inputConfig) ∧
      (∃ F, (createStrategyDefinition axes s0 rest comm).calculate = some F ∧
        ∀ ins, F ins m = s0.calculate ins)) := by
  have hne1 : ¬ axes.length = 1 := by omega
  have hid : resolveStrategyId axes s0 (some m) =
      String.intercalate "_" (axes.map (storedOrDefault m)) := by
    unfold resolveStrategyId
    simp only [dif_neg hne1]
    congr 1
    apply List.map_congr_left
    intro a ha
    unfold axisValue storedOrDefault
    rcases hvals a ha with hv | ⟨sv, hv, hsv⟩
    · rw [hv]
      rfl
    · rw [hv]
      unfold truthy jsToString
      simp [hsv]
  refine ⟨hid, ?_, ?_⟩
  · intro v hfind
    constructor
    · refine ⟨_, rfl, ?_⟩
      show (findStrategy (s0 :: rest) s0
        (resolveStrategyId axes s0 (some card.inputs))).inputConfig = v.inputConfig
      rw [hcard]
      unfold findStrategy
      rw [hfind]
      rfl
    · refine ⟨_, rfl, ?_⟩
      intro ins
      show (findStrategy (s0 :: rest) s0
        (resolveStrategyId axes s0 (some m))).calculate ins = v.calculate ins
      unfold findStrategy
      rw [hfind]
      rfl
  · intro hfind
    constructor
    · refine ⟨_, rfl, ?_⟩
      show (findStrategy (s0 :: rest) s0
        (resolveStrategyId axes s0 (some card.inputs))).inputConfig = s0.inputConfig
      rw [hcard]
      unfold findStrategy
      rw [hfind]
      rfl
    · refine ⟨_, rfl, ?_⟩
      intro ins
      show (findStrategy (s0 :: rest) s0
        (resolveStrategyId axes s0 (some m))).calculate ins = s0.calculate ins
      unfold findStrategy
      rw [hfind]
      rfl

/-- C8 witness: on the Beam axes, boundary = cantilever and load = point
resolve to the composite id `"cantilever_point"`, whose variant supplies
both the schema and the calculate. -/
theorem C8_composite_dispatch_witness :
    resolveStrategyId beamAxes beamSimpleUniform (some wmInputs) = "cantilever_point" ∧
    (∃ g, beamCardDef.getInputConfig = some g ∧
      g wmCard = beamCantileverPoint.inputConfig) ∧
    (∃ F, beamCardDef.calculate = some F ∧
      ∀ ins, F ins wmInputs = beamCantileverPoint.calculate ins) := by
  have hvals : ∀ a ∈ beamAxes,
      (lookupKV wmInputs a.key).bind (fun sl => sl.value) = none ∨
      ∃ sv, (lookupKV wmInputs a.key).bind (fun sl => sl.value) =
        some (JsVal.str sv) ∧ sv ≠ "" := by
    intro a ha
    rcases List.mem_cons.mp ha with rfl | ha
    · exact Or.inr ⟨"cantilever", rfl, by decide⟩
    · rcases List.mem_cons.mp ha with rfl | ha
      · exact Or.inr ⟨"point", rfl, by decide⟩
      · simp at ha
  have h := C8_composite_dispatch beamAxes beamSimpleUniform [beamCantileverPoint]
    [] wmInputs wmCard rfl (by decide) hvals
  have hfind : ([beamSimpleUniform, beamCantileverPoint].find?
      (fun st => st.id = resolveStrategyId beamAxes beamSimpleUniform (some wmInputs))) =
      some beamCantileverPoint := by rfl
  refine ⟨h.1.trans (by rfl), ?_, ?_⟩
  · exact (h.2.1 beamCantileverPoint hfind).1
  · exact (h.2.1 beamCantileverPoint hfind).2

/-- C9: `updateInput` stores the literal and clears the slot's reference;
`setInputRef` stores the reference and clears the slot's literal to `''`;
consequently, starting from well-formed cards, any sequence of the exposed
slot mutations (set literal, set reference, clear reference, delete input,
each followed by its recalculation pass) keeps every slot free of a
simultaneous literal value and reference. -/
theorem C9_slot_exclusivity (reg : Registry) :
    (∀ (cs : List Card) (cid k : String) (v : JsVal),
      ∀ c' ∈ updateInput cs cid k v, c'.id = cid →
        ∃ inp, lookupKV c'.inputs k = some inp ∧ inp.ref = none ∧
          inp.value = some v) ∧
    (∀ (cs : List Card) (cid k tid tk : String),
      ∀ c' ∈ setInputRef cs cid k tid tk, c'.id = cid →
        lookupKV c'.inputs k =
          some ⟨some (JsVal.str ""), some ⟨tid, tk⟩⟩) ∧
    (∀ cs₀ : List Card, CardsSlotsOk cs₀ → ∀ ops : List StoreOp,
      CardsSlotsOk (ops.foldl (applyOp reg) cs₀)) := by
  refine ⟨?_, ?_, ?_⟩
  · intro cs cid k v c' hc' hid
    unfold updateInput at hc'
    rcases List.mem_map.mp hc' with ⟨c, hc, rfl⟩
    by_cases hcid : c.id = cid
    · simp only [hcid, if_pos]
      refine ⟨{ (lookupKV c.inputs k).getD ⟨some (JsVal.str ""), none⟩ with
        value := some v, ref := none }, ?_, rfl, rfl⟩
      rw [lookupKV_setKV, if_pos rfl]
    · rw [if_neg hcid] at hid
      exact absurd hid hcid
  · intro cs cid k tid tk c' hc' hid
    unfold setInputRef at hc'
    rcases List.mem_map.mp hc' with ⟨c, hc, rfl⟩
    by_cases hcid : c.id = cid
    · simp only [hcid, if_pos]
      rw [lookupKV_setKV, if_pos rfl]
    · rw [if_neg hcid] at hid
      exact absurd hid hcid
  · intro cs₀ h0 ops
    induction ops generalizing cs₀ with
    | nil => exact h0
    | cons op t ih =>
        rw [List.foldl_cons]
        exact ih (applyOp reg cs₀ op) (applyOp_slotsOk reg cs₀ op h0)

/-- C9 witness: the invariant holds for the witness cards and is kept by a
concrete mutation sequence under an empty registry. -/
theorem C9_slot_exclusivity_witness :
    CardsSlotsOk wabCards ∧
    CardsSlotsOk
      ([StoreOp.update "a" "k" (JsVal.num 3),
        StoreOp.setRef "a" "k" "b" "o",
        StoreOp.clearRef "b" "x"].foldl (applyOp (fun _ => none)) wabCards) :=
  ⟨by decide,
   (C9_slot_exclusivity (fun _ => none)).2.2 wabCards (by decide)
     [StoreOp.update "a" "k" (JsVal.num 3),
      StoreOp.setRef "a" "k" "b" "o",
      StoreOp.clearRef "b" "x"]⟩

/-- C3 (counterexample): on the two-card reference cycle
`cycX ↔ cycY`, whose registered calculate echoes its resolved input, a
second invocation of `recalculateAll` on the unchanged result list
produces different outputs than the first — a card on a cycle reads its
partner's stale output from the previous pass — so the recalculation pass
is not idempotent on lists whose references form cycles, even though
every calculate involved is pure. -/
theorem C3_counterexample :
    recalculateAll cycReg (recalculateAll cycReg [cycX, cycY]) ≠
      recalculateAll cycReg [cycX, cycY] := by decide

/-- C3 (amended): for every card list with pairwise-distinct ids whose
reference edges form no cycle, and every registry whose dynamic
input-config functions read only the card's stored inputs (as all
strategy-built definitions do), invoking the recalculation pass twice on
the unchanged list yields, for every card, outputs and error identical to
a single invocation: the second pass returns the first pass's result list
verbatim. -/
theorem C3_recalculateAll_idempotent (reg : Registry) (cards : List Card)
    (hnd : (cardIds cards).Nodup) (hacy : AcyclicCards cards)
    (hreg : RegInputsOnly reg) :
    recalculateAll reg (recalculateAll reg cards) = recalculateAll reg cards := by
  obtain ⟨hfix1, hfix2⟩ := snapFinal_fix reg cards hnd hacy
  have hmap := recalculateAll_fix_map reg cards hnd hacy
  have hskel : ∀ c ∈ cards,
      (processCard reg (snapFinal reg cards) c).id = c.id ∧
      (processCard reg (snapFinal reg cards) c).inputs = c.inputs :=
    fun c _ => ⟨(processCard_skeleton reg _ c).1,
      (processCard_skeleton reg _ c).2.2.2⟩
  have hids2 : cardIds (recalculateAll reg cards) = cardIds cards := by
    rw [hmap]
    exact cardIds_map cards _ hskel
  have hnd2 : (cardIds (recalculateAll reg cards)).Nodup := by
    rw [hids2]
    exact hnd
  have hseed : ∀ x, lookupKV (snapSeed (recalculateAll reg cards)) x =
      lookupKV (snapFinal reg cards) x := by
    intro x
    by_cases hx : x ∈ cardIds cards
    · obtain ⟨c, hc, hcid⟩ := List.mem_map.mp hx
      subst hcid
      have hcmem2 : processCard reg (snapFinal reg cards) c ∈
          recalculateAll reg cards := by
        rw [hmap]
        exact List.mem_map.mpr ⟨c, hc, rfl⟩
      have hlook := snapSeed_mem (recalculateAll reg cards) hnd2
        (processCard reg (snapFinal reg cards) c) hcmem2
      rw [(processCard_skeleton reg (snapFinal reg cards) c).1] at hlook
      rw [hlook, hfix2 c hc]
    · rw [snapSeed_none (recalculateAll reg cards) x (by rw [hids2]; exact hx),
        hfix1 x hx]
  have hfold2 : ∀ x, lookupKV (snapFinal reg (recalculateAll reg cards)) x =
      lookupKV (snapFinal reg cards) x := by
    intro x
    have hdef : snapFinal reg (recalculateAll reg cards) =
        (topologicalSort (recalculateAll reg cards)).foldl (passStep reg)
          (snapSeed (recalculateAll reg cards)) := rfl
    rw [hdef]
    exact passFold_id reg (snapFinal reg cards)
      (snapFinal_entries_fixed reg cards hreg hnd hacy) _ _ hseed x
  rw [recalculateAll_eq_map reg (recalculateAll reg cards)]
  have hall : ∀ c' ∈ recalculateAll reg cards,
      (lookupKV (snapFinal reg (recalculateAll reg cards)) c'.id).getD c' =
        c' := by
    intro c' hc'
    rw [hfold2 c'.id]
    rw [hmap] at hc'
    obtain ⟨c, hc, rfl⟩ := List.mem_map.mp hc'
    rw [(processCard_skeleton reg (snapFinal reg cards) c).1, hfix2 c hc]
    rfl
  rw [List.map_congr_left hall]
  simp

theorem C3_recalculateAll_idempotent_witness :
    recalculateAll c3wReg (recalculateAll c3wReg wabCards) =
      recalculateAll c3wReg wabCards :=
  C3_recalculateAll_idempotent c3wReg wabCards (by decide) wabCards_acyclic
    (by
      intro t d f hd hf c1 c2 _
      have hd' : some (⟨[], [], none, some c3wCalc⟩ : CardDef) = some d := hd
      rw [← Option.some.inj hd'] at hf
      exact Option.noConfusion hf)

end Tsumiki
